import Mathlib

/-!
Verification development for the BusTub storage-engine core: persistent trie,
LRU-K replacer, buffer pool manager, page guards, and the disk extendible
hash table.  Each C++ source function is shallowly embedded as an executable
Lean definition, and the spec's claims are settled as theorems about those
definitions.
-/

namespace BusTubSpec

/-! ## Persistent trie (src/primer/trie.cpp)

A `TrieNode` carries a child map (`children_`, a std::map from char to
shared child pointer, modelled as an association list with identical lookup
and insert-or-replace semantics) and an optional value (`is_value_node_`
plus the `TrieNodeWithValue` payload, modelled as `Option V`; a single value
type suffices for the claims considered, so the dynamic_cast always
succeeds).  A `Trie` is a nullable root pointer. -/

inductive TrieNode (V : Type) : Type where
  | mk : List (Char × TrieNode V) → Option V → TrieNode V

namespace TrieNode

def children : TrieNode V → List (Char × TrieNode V)
  | .mk ch _ => ch

def value : TrieNode V → Option V
  | .mk _ v => v

@[simp] theorem children_mk (ch : List (Char × TrieNode V)) (v : Option V) :
    (TrieNode.mk ch v).children = ch := rfl

@[simp] theorem value_mk (ch : List (Char × TrieNode V)) (v : Option V) :
    (TrieNode.mk ch v).value = v := rfl

end TrieNode

/-- Lookup in a node's child map: `children_.find(c)`. -/
def lookupChild : List (Char × TrieNode V) → Char → Option (TrieNode V)
  | [], _ => none
  | (c', n) :: rest, c => if c = c' then some n else lookupChild rest c

/-- Insert-or-replace in a child map: `children_[c] = n`. -/
def insertChild : List (Char × TrieNode V) → Char → TrieNode V → List (Char × TrieNode V)
  | [], c, n => [(c, n)]
  | (c', n') :: rest, c, n =>
      if c = c' then (c, n) :: rest else (c', n') :: insertChild rest c n

/-- `Trie::Get` walk from a non-null node (trie.cpp lines 15-44): follow one
child per key character; at the end return the value if the node is a value
node, else null. -/
def nodeGet : TrieNode V → List Char → Option V
  | n, [] => n.value
  | n, c :: cs =>
      match lookupChild n.children c with
      | some child => nodeGet child cs
      | none => none

/-- `Trie::Put` path-copying walk (trie.cpp lines 51-81): along the key clone
the existing child or make a fresh plain node; at the terminal install a
value node keeping the existing child's children. -/
def nodePut : TrieNode V → List Char → V → TrieNode V
  | n, [], v => .mk n.children (some v)
  | n, c :: cs, v =>
      let child := (lookupChild n.children c).getD (.mk [] none)
      .mk (insertChild n.children c (nodePut child cs v)) n.value

/-- The C++ `Trie`: a nullable shared root pointer. -/
structure Trie (V : Type) : Type where
  root : Option (TrieNode V)

namespace Trie

/-- `Trie::Get` (trie.cpp lines 7-45): null root is a miss. -/
def Get (t : Trie V) (key : List Char) : Option V :=
  match t.root with
  | none => none
  | some n => nodeGet n key

/-- `Trie::Put` (trie.cpp lines 47-85): clone the root (or start from a fresh
plain node when the root is null), then path-copy along the key.  The empty
key replaces the root by a value node keeping its children, which is exactly
`nodePut` at `[]`. -/
def Put (t : Trie V) (key : List Char) (v : V) : Trie V :=
  let n_root := t.root.getD (.mk [] none)
  ⟨some (nodePut n_root key v)⟩

end Trie

theorem lookupChild_insertChild_self (l : List (Char × TrieNode V)) (c : Char) (n : TrieNode V) :
    lookupChild (insertChild l c n) c = some n := by
  induction l with
  | nil => simp [insertChild, lookupChild]
  | cons hd tl ih =>
      obtain ⟨c', n'⟩ := hd
      by_cases h : c = c'
      · simp [insertChild, lookupChild, h]
      · simp [insertChild, lookupChild, h, ih]

theorem lookupChild_insertChild_ne (l : List (Char × TrieNode V)) (c c' : Char) (n : TrieNode V)
    (h : c' ≠ c) : lookupChild (insertChild l c n) c' = lookupChild l c' := by
  induction l with
  | nil => simp [insertChild, lookupChild, h]
  | cons hd tl ih =>
      obtain ⟨c₀, n₀⟩ := hd
      by_cases hc : c = c₀
      · subst hc
        simp [insertChild, lookupChild, h]
      · by_cases hc' : c' = c₀ <;> simp [insertChild, lookupChild, hc, hc', ih]

theorem nodeGet_nodePut_self (n : TrieNode V) (key : List Char) (v : V) :
    nodeGet (nodePut n key v) key = some v := by
  induction key generalizing n with
  | nil => simp [nodeGet, nodePut, TrieNode.value]
  | cons c cs ih =>
      simp [nodeGet, nodePut, TrieNode.children, lookupChild_insertChild_self, ih]

theorem nodeGet_empty (key : List Char) :
    nodeGet (TrieNode.mk ([] : List (Char × TrieNode V)) none) key = none := by
  cases key with
  | nil => simp [nodeGet, TrieNode.value]
  | cons c cs => simp [nodeGet, TrieNode.children, lookupChild]

theorem nodeGet_nodePut_frame (n : TrieNode V) (key key' : List Char) (v : V)
    (h : key' ≠ key) : nodeGet (nodePut n key v) key' = nodeGet n key' := by
  induction key generalizing n key' with
  | nil =>
      cases key' with
      | nil => exact absurd rfl h
      | cons c' cs' => simp [nodeGet, nodePut, TrieNode.children]
  | cons c cs ih =>
      obtain ⟨nch, nv⟩ := n
      cases key' with
      | nil => simp [nodeGet, nodePut]
      | cons c' cs' =>
          by_cases hc : c' = c
          · subst hc
            have hcs : cs' ≠ cs := fun hh => h (by rw [hh])
            simp only [nodeGet, nodePut, TrieNode.children_mk, TrieNode.value_mk,
              lookupChild_insertChild_self]
            cases hch : lookupChild nch c' with
            | some child => simpa [hch] using ih child cs' hcs
            | none =>
                simp only [hch, Option.getD_none]
                rw [ih _ cs' hcs, nodeGet_empty]
          · simp [nodeGet, nodePut, lookupChild_insertChild_ne _ _ _ _ hc]

/-- C9: trie persistence.  `t.Put(k,v).Get(k)` returns `v`; for `k' ≠ k`,
`t.Put(k,v).Get(k')` agrees with `t.Get(k')`.  (The original trie `t` is a
pure value in this embedding, so it is unchanged by construction: `Put`
builds a new root by path copying and never mutates an existing node.) -/
theorem trie_put_get (t : Trie V) (k : List Char) (v : V) :
    (t.Put k v).Get k = some v ∧
      ∀ k' : List Char, k' ≠ k → (t.Put k v).Get k' = t.Get k' := by
  constructor
  · simp [Trie.Put, Trie.Get, nodeGet_nodePut_self]
  · intro k' hk
    cases ht : t.root with
    | none =>
        simp only [Trie.Put, Trie.Get, ht, Option.getD_none]
        rw [nodeGet_nodePut_frame _ _ _ _ hk, nodeGet_empty]
    | some n =>
        simp only [Trie.Put, Trie.Get, ht, Option.getD_some]
        exact nodeGet_nodePut_frame _ _ _ _ hk

/-- C9 witness: concrete instance with a hypothesis-free application. -/
theorem trie_put_get_witness :
    (Trie.Put ⟨(none : Option (TrieNode Nat))⟩ [Char.ofNat 97] 5).Get [Char.ofNat 97] = some 5 ∧
      (Trie.Put ⟨(none : Option (TrieNode Nat))⟩ [Char.ofNat 97] 5).Get [Char.ofNat 98] =
        Trie.Get ⟨(none : Option (TrieNode Nat))⟩ [Char.ofNat 98] :=
  ⟨(trie_put_get ⟨none⟩ [Char.ofNat 97] 5).1,
    (trie_put_get ⟨none⟩ [Char.ofNat 97] 5).2 [Char.ofNat 98] (by decide)⟩

/-! ## LRU-K replacer (src/buffer/lru_k_replacer.cpp)

`node_store_` is a std::unordered_map from frame id to node, modelled as an
association list with unique keys; `less_k_list_` and `more_k_list_` are
std::lists of frame ids whose head is the front (emplace_front position).
A node's stored iterator `it_` is recovered from the frame id itself, which
is faithful because reachable replacer states hold each frame id at most
once per list.  `BUSTUB_ENSURE` failures are abort-class programmer errors
(spec section 7); theorems only consider calls whose ensures hold. -/

/-- Association-list lookup (std::unordered_map::find). -/
def alistFind {α β : Type} [DecidableEq α] : List (α × β) → α → Option β
  | [], _ => none
  | (k', v) :: rest, k => if k = k' then some v else alistFind rest k

/-- Association-list insert-or-assign. -/
def alistInsert {α β : Type} [DecidableEq α] : List (α × β) → α → β → List (α × β)
  | [], k, v => [(k, v)]
  | (k', v') :: rest, k, v =>
      if k = k' then (k, v) :: rest else (k', v') :: alistInsert rest k v

/-- Association-list erase of the first pair with the given key. -/
def alistErase {α β : Type} [DecidableEq α] : List (α × β) → α → List (α × β)
  | [], _ => []
  | (k', v') :: rest, k => if k = k' then rest else (k', v') :: alistErase rest k

/-- `LRUKNode`: access count `k_` and the `is_evictable_` flag (the frame id
and list iterator are recovered from the store key and the lists). -/
structure LRUKNode : Type where
  k : Nat
  is_evictable : Bool
deriving DecidableEq

structure LRUKReplacer : Type where
  node_store : List (Nat × LRUKNode)
  less_k_list : List Nat
  more_k_list : List Nat
  curr_size : Nat
  replacer_size : Nat
  k : Nat
deriving DecidableEq

namespace LRUKReplacer

/-- `LRUKReplacer::LRUKReplacer(num_frames, k)`. -/
def init (num_frames k : Nat) : LRUKReplacer :=
  { node_store := [], less_k_list := [], more_k_list := [],
    curr_size := 0, replacer_size := num_frames, k := k }

/-- One reverse scan of `Evict` (lru_k_replacer.cpp lines 323-346): walk the
list from the back and pick the first evictable node.  (If a listed frame
were absent from the store the C++ dereference would be undefined; reachable
states never contain such a frame, and the model treats it as a skip.) -/
def evictScan (store : List (Nat × LRUKNode)) (l : List Nat) : Option Nat :=
  l.find? fun f =>
    match alistFind store f with
    | some n => n.is_evictable
    | none => false

/-- `LRUKReplacer::Evict` (lru_k_replacer.cpp lines 321-349): scan the
young (`less_k_list_`) list tail-first, then the mature (`more_k_list_`)
list; remove the chosen node and decrement `curr_size_`.  Returning `none`
models the failure path, which assigns the local pointer variable and never
writes through the out parameter. -/
def Evict (r : LRUKReplacer) : Option Nat × LRUKReplacer :=
  match evictScan r.node_store r.less_k_list.reverse with
  | some f =>
      (some f,
        { r with
          less_k_list := r.less_k_list.erase f
          node_store := alistErase r.node_store f
          curr_size := r.curr_size - 1 })
  | none =>
      match evictScan r.node_store r.more_k_list.reverse with
      | some f =>
          (some f,
            { r with
              more_k_list := r.more_k_list.erase f
              node_store := alistErase r.node_store f
              curr_size := r.curr_size - 1 })
      | none => (none, r)

/-- `LRUKReplacer::RecordAccess` (lru_k_replacer.cpp lines 351-372): insert a
fresh non-evictable node at the front of the young list on first access,
increment its count; on reaching exactly `k_` move it to the front of the
mature list; past `k_` move it to the front of the mature list again. -/
def RecordAccess (r : LRUKReplacer) (fid : Nat) : LRUKReplacer :=
  let r1 :=
    match alistFind r.node_store fid with
    | some _ => r
    | none =>
        { r with
          less_k_list := fid :: r.less_k_list
          node_store := alistInsert r.node_store fid { k := 0, is_evictable := false } }
  match alistFind r1.node_store fid with
  | none => r1
  | some n =>
      let k' := n.k + 1
      let r2 := { r1 with node_store := alistInsert r1.node_store fid { n with k := k' } }
      if k' = r.k then
        { r2 with
          less_k_list := r2.less_k_list.erase fid
          more_k_list := fid :: r2.more_k_list }
      else if k' > r.k then
        { r2 with more_k_list := fid :: r2.more_k_list.erase fid }
      else r2

/-- `LRUKReplacer::SetEvictable` (lru_k_replacer.cpp lines 374-388). -/
def SetEvictable (r : LRUKReplacer) (fid : Nat) (set_evictable : Bool) : LRUKReplacer :=
  match alistFind r.node_store fid with
  | none => r
  | some n =>
      if n.is_evictable = set_evictable then r
      else
        { r with
          curr_size := if set_evictable then r.curr_size + 1 else r.curr_size - 1
          node_store := alistInsert r.node_store fid { n with is_evictable := set_evictable } }

/-- `LRUKReplacer::Remove` (lru_k_replacer.cpp lines 390-407): no-op if
absent; otherwise erase from the list chosen by the access count and from
the store, and decrement `curr_size_` (the evictability ensure is assumed by
callers). -/
def Remove (r : LRUKReplacer) (fid : Nat) : LRUKReplacer :=
  match alistFind r.node_store fid with
  | none => r
  | some n =>
      { r with
        less_k_list := if n.k < r.k then r.less_k_list.erase fid else r.less_k_list
        more_k_list := if n.k < r.k then r.more_k_list else r.more_k_list.erase fid
        curr_size := r.curr_size - 1
        node_store := alistErase r.node_store fid }

/-- Number of evictable nodes in the store. -/
def evictableCount (r : LRUKReplacer) : Nat :=
  (r.node_store.filter fun p => p.2.is_evictable).length

/-- Well-formedness of reachable replacer states: `curr_size_` counts the
evictable nodes, every stored node sits in the list matching its access
count, and store keys are unique. -/
def WF (r : LRUKReplacer) : Prop :=
  r.curr_size = r.evictableCount ∧
    (∀ p ∈ r.node_store,
      (p.2.k < r.k → p.1 ∈ r.less_k_list) ∧ (r.k ≤ p.2.k → p.1 ∈ r.more_k_list)) ∧
    (r.node_store.map Prod.fst).Nodup

end LRUKReplacer

theorem alistFind_mem {α β : Type} [DecidableEq α] {l : List (α × β)} {k : α} {v : β}
    (h : alistFind l k = some v) : (k, v) ∈ l := by
  induction l with
  | nil => simp [alistFind] at h
  | cons hd tl ih =>
      obtain ⟨k', v'⟩ := hd
      by_cases hk : k = k'
      · subst hk
        simp [alistFind] at h
        simp [h]
      · simp only [alistFind, if_neg hk] at h
        exact List.mem_cons_of_mem _ (ih h)

theorem alistFind_eq_of_mem_nodup {α β : Type} [DecidableEq α] {l : List (α × β)} {k : α} {v : β}
    (hmem : (k, v) ∈ l) (hnd : (l.map Prod.fst).Nodup) : alistFind l k = some v := by
  induction l with
  | nil => simp at hmem
  | cons hd tl ih =>
      obtain ⟨k', v'⟩ := hd
      simp only [List.map_cons, List.nodup_cons] at hnd
      rcases List.mem_cons.mp hmem with heq | htl
      · cases heq
        simp [alistFind]
      · have hk : k ≠ k' := by
          rintro rfl
          exact hnd.1 (List.mem_map.mpr ⟨(k, v), htl, rfl⟩)
        simp only [alistFind, if_neg hk]
        exact ih htl hnd.2

theorem alistFind_alistErase_self {α β : Type} [DecidableEq α] {l : List (α × β)} {k : α}
    (hnd : (l.map Prod.fst).Nodup) : alistFind (alistErase l k) k = none := by
  induction l with
  | nil => simp [alistErase, alistFind]
  | cons hd tl ih =>
      obtain ⟨k', v'⟩ := hd
      simp only [List.map_cons, List.nodup_cons] at hnd
      by_cases hk : k = k'
      · subst hk
        have herase : alistErase ((k, v') :: tl) k = tl := by simp [alistErase]
        rw [herase]
        cases hf : alistFind tl k with
        | none => rfl
        | some v =>
            exact absurd (List.mem_map.mpr ⟨(k, v), alistFind_mem hf, rfl⟩) hnd.1
      · simp only [alistErase, if_neg hk, alistFind, if_neg hk]
        exact ih hnd.2

theorem find?_append_false {α : Type} {p : α → Bool} {l₁ l₂ : List α}
    (h : ∀ x ∈ l₁, p x = false) : (l₁ ++ l₂).find? p = l₂.find? p := by
  induction l₁ with
  | nil => simp
  | cons hd tl ih =>
      have hp := h hd (List.mem_cons_self hd tl)
      simp only [List.cons_append, List.find?_cons, hp]
      exact ih fun x hx => h x (List.mem_cons_of_mem _ hx)

theorem alistFind_alistInsert_self {α β : Type} [DecidableEq α] (l : List (α × β)) (k : α)
    (v : β) : alistFind (alistInsert l k v) k = some v := by
  induction l with
  | nil => simp [alistInsert, alistFind]
  | cons hd tl ih =>
      obtain ⟨k', v'⟩ := hd
      by_cases h : k = k'
      · simp [alistInsert, alistFind, h]
      · simp [alistInsert, alistFind, h, ih]

theorem alistFind_eq_none_iff {α β : Type} [DecidableEq α] {l : List (α × β)} {k : α} :
    alistFind l k = none ↔ k ∉ l.map Prod.fst := by
  induction l with
  | nil => simp [alistFind]
  | cons hd tl ih =>
      obtain ⟨k', v'⟩ := hd
      by_cases h : k = k'
      · subst h
        simp [alistFind]
      · simp [alistFind, h, ih, Ne.symm h]

theorem alistErase_sublist {α β : Type} [DecidableEq α] (l : List (α × β)) (k : α) :
    (alistErase l k).Sublist l := by
  induction l with
  | nil => simp [alistErase]
  | cons hd tl ih =>
      obtain ⟨k', v'⟩ := hd
      by_cases h : k = k'
      · simp [alistErase, h]
      · simpa [alistErase, h] using ih.cons₂ (k', v')

theorem mem_alistErase_of_ne {α β : Type} [DecidableEq α] {l : List (α × β)} {k : α}
    {p : α × β} (hp : p ∈ l) (h : p.1 ≠ k) : p ∈ alistErase l k := by
  induction l with
  | nil => simp at hp
  | cons hd tl ih =>
      obtain ⟨k', v'⟩ := hd
      rcases List.mem_cons.mp hp with rfl | htl
      · have : k ≠ k' := fun hh => h (by simp [hh])
        simp [alistErase, this]
      · by_cases hk : k = k'
        · simpa [alistErase, hk] using htl
        · simpa [alistErase, hk] using Or.inr (ih htl)

theorem mem_alistInsert_self {α β : Type} [DecidableEq α] (l : List (α × β)) (k : α) (v : β) :
    (k, v) ∈ alistInsert l k v := by
  induction l with
  | nil => simp [alistInsert]
  | cons hd tl ih =>
      obtain ⟨k', v'⟩ := hd
      by_cases h : k = k'
      · simp [alistInsert, h]
      · rw [show alistInsert ((k', v') :: tl) k v = (k', v') :: alistInsert tl k v by
          simp [alistInsert, h]]
        exact List.mem_cons.mpr (Or.inr ih)

theorem mem_alistInsert_of_ne {α β : Type} [DecidableEq α] {l : List (α × β)} {k : α} {v : β}
    {p : α × β} (hp : p ∈ l) (h : p.1 ≠ k) : p ∈ alistInsert l k v := by
  induction l with
  | nil => simp at hp
  | cons hd tl ih =>
      obtain ⟨k', v'⟩ := hd
      rcases List.mem_cons.mp hp with rfl | htl
      · have hk : k ≠ k' := fun hh => h (by simp [hh])
        simp [alistInsert, hk]
      · by_cases hk : k = k'
        · simpa [alistInsert, hk] using Or.inr htl
        · simpa [alistInsert, hk] using Or.inr (ih htl)

theorem mem_alistInsert_elim {α β : Type} [DecidableEq α] {l : List (α × β)} {k : α} {v : β}
    {p : α × β} (hnd : (l.map Prod.fst).Nodup) (hp : p ∈ alistInsert l k v) :
    p = (k, v) ∨ (p ∈ l ∧ p.1 ≠ k) := by
  induction l with
  | nil =>
      simp [alistInsert] at hp
      exact Or.inl hp
  | cons hd tl ih =>
      obtain ⟨k', v'⟩ := hd
      simp only [List.map_cons, List.nodup_cons] at hnd
      by_cases hk : k = k'
      · subst hk
        rcases List.mem_cons.mp (by simpa [alistInsert] using hp) with rfl | htl
        · exact Or.inl rfl
        · by_cases hpk : p.1 = k
          · exact absurd (List.mem_map.mpr ⟨p, htl, hpk⟩) hnd.1
          · exact Or.inr ⟨List.mem_cons_of_mem _ htl, hpk⟩
      · rcases List.mem_cons.mp (by simpa [alistInsert, hk] using hp) with rfl | htl
        · exact Or.inr ⟨List.mem_cons_self _ _, fun hh => hk (by simpa using hh.symm)⟩
        · rcases ih hnd.2 htl with h | ⟨hmem, hne⟩
          · exact Or.inl h
          · exact Or.inr ⟨List.mem_cons_of_mem _ hmem, hne⟩

theorem map_fst_alistInsert_found {α β : Type} [DecidableEq α] {l : List (α × β)} {k : α}
    {v : β} (hf : (alistFind l k).isSome) :
    (alistInsert l k v).map Prod.fst = l.map Prod.fst := by
  induction l with
  | nil => simp [alistFind] at hf
  | cons hd tl ih =>
      obtain ⟨k', v'⟩ := hd
      by_cases h : k = k'
      · simp [alistInsert, h]
      · simp only [alistFind, if_neg h] at hf
        simp [alistInsert, h, ih hf]

theorem map_fst_alistInsert_none {α β : Type} [DecidableEq α] {l : List (α × β)} {k : α}
    {v : β} (hf : alistFind l k = none) :
    (alistInsert l k v).map Prod.fst = l.map Prod.fst ++ [k] := by
  induction l with
  | nil => simp [alistInsert]
  | cons hd tl ih =>
      obtain ⟨k', v'⟩ := hd
      by_cases h : k = k'
      · simp [alistFind, h] at hf
      · simp only [alistFind, if_neg h] at hf
        simp [alistInsert, h, ih hf]

namespace LRUKReplacer

/-- The predicate `Evict` tests on a listed frame id. -/
def evictPred (store : List (Nat × LRUKNode)) (f : Nat) : Bool :=
  match alistFind store f with
  | some n => n.is_evictable
  | none => false

theorem evictScan_eq_find (store : List (Nat × LRUKNode)) (l : List Nat) :
    evictScan store l = l.find? (evictPred store) := rfl

theorem evictableCount_pos {r : LRUKReplacer} {f : Nat} {n : LRUKNode}
    (hf : alistFind r.node_store f = some n) (he : n.is_evictable = true) :
    0 < r.evictableCount := by
  have hmem : (f, n) ∈ r.node_store := alistFind_mem hf
  have : (f, n) ∈ r.node_store.filter fun p => p.2.is_evictable :=
    List.mem_filter.mpr ⟨hmem, he⟩
  exact List.length_pos.mpr fun hnil => by simp [hnil] at this

theorem evictableCount_eq_zero {r : LRUKReplacer}
    (h : ∀ p ∈ r.node_store, p.2.is_evictable = false) : r.evictableCount = 0 := by
  unfold evictableCount
  rw [List.filter_eq_nil_iff.mpr fun p hp => by simp [h p hp]]
  rfl

instance (r : LRUKReplacer) : Decidable r.WF := by
  unfold WF
  exact inferInstance

/-- C6: `Evict` returns false iff `curr_size == 0`; the failure path leaves
the state unchanged (and never writes through the out pointer, modelled by
the `none` result); the success path removes the chosen node from the store
and decrements `curr_size`.  The hypothesis `WF` characterises the states
the replacer can actually reach. -/
theorem evict_contract (r : LRUKReplacer) (hwf : r.WF) :
    ((r.Evict).1 = none ↔ r.curr_size = 0) ∧
      ((r.Evict).1 = none → (r.Evict).2 = r) ∧
      (∀ f, (r.Evict).1 = some f →
        alistFind (r.Evict).2.node_store f = none ∧
          (r.Evict).2.curr_size + 1 = r.curr_size) := by
  obtain ⟨hcnt, hlists, hnd⟩ := hwf
  cases hless : r.less_k_list.reverse.find? (evictPred r.node_store) with
  | some f =>
      have hev : r.Evict =
          (some f,
            { r with
              less_k_list := r.less_k_list.erase f
              node_store := alistErase r.node_store f
              curr_size := r.curr_size - 1 }) := by
        unfold Evict
        rw [evictScan_eq_find, hless]
      have hp := List.find?_some hless
      simp only [evictPred] at hp
      cases hfind : alistFind r.node_store f with
      | none => rw [hfind] at hp; exact absurd hp (by simp)
      | some n =>
          rw [hfind] at hp
          have hpos : 0 < r.curr_size := hcnt ▸ evictableCount_pos hfind hp
          rw [hev]
          refine ⟨by simp [Nat.pos_iff_ne_zero.mp hpos], by simp, ?_⟩
          rintro f' hf'
          simp only [Option.some.injEq] at hf'
          subst hf'
          exact ⟨alistFind_alistErase_self hnd, by
            show r.curr_size - 1 + 1 = r.curr_size
            omega⟩
  | none =>
      cases hmore : r.more_k_list.reverse.find? (evictPred r.node_store) with
      | some f =>
          have hev : r.Evict =
              (some f,
                { r with
                  more_k_list := r.more_k_list.erase f
                  node_store := alistErase r.node_store f
                  curr_size := r.curr_size - 1 }) := by
            unfold Evict
            rw [evictScan_eq_find, evictScan_eq_find, hless, hmore]
          have hp := List.find?_some hmore
          simp only [evictPred] at hp
          cases hfind : alistFind r.node_store f with
          | none => rw [hfind] at hp; exact absurd hp (by simp)
          | some n =>
              rw [hfind] at hp
              have hpos : 0 < r.curr_size := hcnt ▸ evictableCount_pos hfind hp
              rw [hev]
              refine ⟨by simp [Nat.pos_iff_ne_zero.mp hpos], by simp, ?_⟩
              rintro f' hf'
              simp only [Option.some.injEq] at hf'
              subst hf'
              exact ⟨alistFind_alistErase_self hnd, by
                show r.curr_size - 1 + 1 = r.curr_size
                omega⟩
      | none =>
          have hev : r.Evict = (none, r) := by
            unfold Evict
            rw [evictScan_eq_find, evictScan_eq_find, hless, hmore]
          have hall : ∀ p ∈ r.node_store, p.2.is_evictable = false := by
            intro p hp
            have hfind : alistFind r.node_store p.1 = some p.2 :=
              alistFind_eq_of_mem_nodup (by simpa using hp) hnd
            have hmem : p.1 ∈ r.less_k_list ∨ p.1 ∈ r.more_k_list := by
              by_cases hk : p.2.k < r.k
              · exact Or.inl ((hlists p hp).1 hk)
              · exact Or.inr ((hlists p hp).2 (Nat.le_of_not_lt hk))
            have hpred : evictPred r.node_store p.1 = false := by
              rcases hmem with hm | hm
              · simpa using List.find?_eq_none.mp hless _ (List.mem_reverse.mpr hm)
              · simpa using List.find?_eq_none.mp hmore _ (List.mem_reverse.mpr hm)
            simpa [evictPred, hfind] using hpred
          rw [hev]
          refine ⟨by simp [hcnt, evictableCount_eq_zero hall], fun _ => rfl, ?_⟩
          rintro f hf
          simp at hf

/-- State used to witness the `Evict` contract: one recorded, evictable
frame. -/
def c6state : LRUKReplacer := SetEvictable (RecordAccess (init 2 3) 0) 0 true

/-- C6 witness: the contract applied to the empty replacer and to a
one-frame evictable state. -/
theorem evict_contract_witness :
    (((init 2 3).Evict).1 = none ↔ (init 2 3).curr_size = 0) ∧
      (alistFind (c6state.Evict).2.node_store 0 = none ∧
        (c6state.Evict).2.curr_size + 1 = c6state.curr_size) :=
  ⟨(evict_contract (init 2 3) (by decide)).1,
    (evict_contract c6state (by decide)).2.2 0 (by decide)⟩

/-- Replacer state reached by the access trace 0, 1, 0 with k = 3 and both
frames made evictable: frame 0 is the most recently accessed (its second
access came last) but sits nearer the tail of the young list because the
young list orders by first access only. -/
def c2state : LRUKReplacer :=
  SetEvictable (SetEvictable (RecordAccess (RecordAccess (RecordAccess (init 2 3) 0) 1) 0) 0 true)
    1 true

/-- C2 counterexample: in `c2state` (k = 3), frames 0 and 1 are the only
evictable frames, both have fewer than 3 accesses, and frame 0's most recent
access (the third `RecordAccess`) is later than frame 1's; the claim demands
`Evict` return frame 1, but the code returns frame 0 because re-accessing a
young frame does not move it within the young list. -/
theorem evict_young_order_counterexample :
    (c2state.k = 3 ∧
      (alistFind c2state.node_store 0).map LRUKNode.k = some 2 ∧
      (alistFind c2state.node_store 1).map LRUKNode.k = some 1 ∧
      (alistFind c2state.node_store 0).map LRUKNode.is_evictable = some true ∧
      (alistFind c2state.node_store 1).map LRUKNode.is_evictable = some true ∧
      c2state.curr_size = 2) ∧
      (c2state.Evict).1 = some 0 ∧ (c2state.Evict).1 ≠ some 1 := by
  decide

/-- C2 amended: the young list holds frames in order of first access (head =
newest first access); `Evict` returns the evictable young frame nearest the
tail, i.e. the evictable frame with the earliest *first* access — not the
least-recently-*accessed* one. -/
theorem evict_young_first_access_order (r : LRUKReplacer) (xs ys : List Nat) (b : Nat)
    (nb : LRUKNode) (hl : r.less_k_list = xs ++ b :: ys)
    (hb : alistFind r.node_store b = some nb) (hbe : nb.is_evictable = true)
    (hys : ∀ f ∈ ys, evictPred r.node_store f = false) :
    (r.Evict).1 = some b := by
  have hscan : evictScan r.node_store r.less_k_list.reverse = some b := by
    rw [evictScan_eq_find, hl]
    rw [List.reverse_append, List.reverse_cons]
    rw [List.append_assoc, find?_append_false (fun f hf => hys f (List.mem_reverse.mp hf))]
    simp [evictPred, hb, hbe]
  unfold Evict
  rw [hscan]

/-- C2 witness: in `c2state` frame 1 was first-accessed after frame 0, so the
amended order evicts frame 0. -/
theorem evict_young_first_access_order_witness : (c2state.Evict).1 = some 0 :=
  evict_young_first_access_order c2state [1] [] 0 { k := 2, is_evictable := true }
    (by decide) (by decide) (by decide) (by decide)

/-! WF is an invariant of every reachable replacer state: it holds of the
fresh replacer and is preserved by each operation (`Remove` under its
BUSTUB_ENSURE precondition that the node is evictable). -/

/-- The number of evictable nodes in a store fragment. -/
def countEv (l : List (Nat × LRUKNode)) : Nat :=
  (l.filter fun p => p.2.is_evictable).length

theorem countEv_cons (k : Nat) (v : LRUKNode) (tl : List (Nat × LRUKNode)) :
    countEv ((k, v) :: tl) = (if v.is_evictable then 1 else 0) + countEv tl := by
  by_cases h : v.is_evictable <;> simp [countEv, List.filter_cons, h, Nat.add_comm]

theorem countEv_alistInsert_found {l : List (Nat × LRUKNode)} {k : Nat} {n n' : LRUKNode}
    (hf : alistFind l k = some n) :
    countEv (alistInsert l k n') + (if n.is_evictable then 1 else 0) =
      countEv l + (if n'.is_evictable then 1 else 0) := by
  induction l with
  | nil => simp [alistFind] at hf
  | cons hd tl ih =>
      obtain ⟨k0, v0⟩ := hd
      by_cases h : k = k0
      · subst h
        have hv : v0 = n := by simpa [alistFind] using hf
        subst hv
        rw [show alistInsert ((k, v0) :: tl) k n' = (k, n') :: tl by simp [alistInsert],
          countEv_cons, countEv_cons]
        omega
      · simp only [alistFind, if_neg h] at hf
        rw [show alistInsert ((k0, v0) :: tl) k n' = (k0, v0) :: alistInsert tl k n' by
            simp [alistInsert, h],
          countEv_cons, countEv_cons]
        have := ih hf
        omega

theorem countEv_alistInsert_none {l : List (Nat × LRUKNode)} {k : Nat} {n' : LRUKNode}
    (hf : alistFind l k = none) :
    countEv (alistInsert l k n') = countEv l + (if n'.is_evictable then 1 else 0) := by
  induction l with
  | nil => by_cases h : n'.is_evictable <;> simp [alistInsert, countEv, h]
  | cons hd tl ih =>
      obtain ⟨k0, v0⟩ := hd
      by_cases h : k = k0
      · simp [alistFind, h] at hf
      · simp only [alistFind, if_neg h] at hf
        rw [show alistInsert ((k0, v0) :: tl) k n' = (k0, v0) :: alistInsert tl k n' by
            simp [alistInsert, h],
          countEv_cons, countEv_cons]
        have := ih hf
        omega

theorem countEv_alistErase_found {l : List (Nat × LRUKNode)} {k : Nat} {n : LRUKNode}
    (hf : alistFind l k = some n) :
    countEv (alistErase l k) + (if n.is_evictable then 1 else 0) = countEv l := by
  induction l with
  | nil => simp [alistFind] at hf
  | cons hd tl ih =>
      obtain ⟨k0, v0⟩ := hd
      by_cases h : k = k0
      · subst h
        have hv : v0 = n := by simpa [alistFind] using hf
        subst hv
        rw [show alistErase ((k, v0) :: tl) k = tl by simp [alistErase], countEv_cons]
        omega
      · simp only [alistFind, if_neg h] at hf
        rw [show alistErase ((k0, v0) :: tl) k = (k0, v0) :: alistErase tl k by
            simp [alistErase, h],
          countEv_cons, countEv_cons]
        have := ih hf
        omega

theorem evictableCount_eq_countEv (r : LRUKReplacer) :
    r.evictableCount = countEv r.node_store := rfl

/-- A key present in an erased store is distinct from the erased key (store
keys unique). -/
theorem mem_alistErase_ne {l : List (Nat × LRUKNode)} {k : Nat} {p : Nat × LRUKNode}
    (hnd : (l.map Prod.fst).Nodup) (hp : p ∈ alistErase l k) : p.1 ≠ k := by
  intro hk
  have hnone : alistFind (alistErase l k) k = none := alistFind_alistErase_self hnd
  rw [alistFind_eq_none_iff] at hnone
  exact hnone (List.mem_map.mpr ⟨p, hp, hk⟩)

theorem WF_init (num_frames k : Nat) : (init num_frames k).WF :=
  ⟨rfl, by simp [init], by simp [init]⟩

theorem WF_SetEvictable (r : LRUKReplacer) (fid : Nat) (b : Bool) (hwf : r.WF) :
    (r.SetEvictable fid b).WF := by
  obtain ⟨hcnt, hlists, hnd⟩ := hwf
  cases hf : alistFind r.node_store fid with
  | none =>
      have hSE : r.SetEvictable fid b = r := by
        unfold SetEvictable
        rw [hf]
      rw [hSE]
      exact ⟨hcnt, hlists, hnd⟩
  | some n =>
      by_cases hb : n.is_evictable = b
      · have hSE : r.SetEvictable fid b = r := by
          unfold SetEvictable
          rw [hf]
          dsimp only
          rw [if_pos hb]
        rw [hSE]
        exact ⟨hcnt, hlists, hnd⟩
      · have hSE : r.SetEvictable fid b =
            { r with
              curr_size := if b then r.curr_size + 1 else r.curr_size - 1
              node_store := alistInsert r.node_store fid { n with is_evictable := b } } := by
          unfold SetEvictable
          rw [hf]
          dsimp only
          rw [if_neg hb]
        rw [hSE]
        refine ⟨?_, ?_, ?_⟩
        · show (if b then r.curr_size + 1 else r.curr_size - 1) =
            countEv (alistInsert r.node_store fid { n with is_evictable := b })
          have hkey := @countEv_alistInsert_found r.node_store fid n { n with is_evictable := b } hf
          rw [evictableCount_eq_countEv] at hcnt
          cases b <;> cases hne : n.is_evictable <;>
            simp [hne] at hkey hb ⊢ <;> omega
        · intro p hp
          rcases mem_alistInsert_elim hnd hp with rfl | ⟨hmem, -⟩
          · have := hlists (fid, n) (alistFind_mem hf)
            simpa using this
          · exact hlists p hmem
        · show ((alistInsert r.node_store fid { n with is_evictable := b }).map Prod.fst).Nodup
          rw [map_fst_alistInsert_found (by simp [hf])]
          exact hnd

theorem WF_Remove (r : LRUKReplacer) (fid : Nat) (hwf : r.WF)
    (hens : ∀ n, alistFind r.node_store fid = some n → n.is_evictable = true) :
    (r.Remove fid).WF := by
  obtain ⟨hcnt, hlists, hnd⟩ := hwf
  cases hf : alistFind r.node_store fid with
  | none =>
      have hRM : r.Remove fid = r := by
        unfold Remove
        rw [hf]
      rw [hRM]
      exact ⟨hcnt, hlists, hnd⟩
  | some n =>
      have hev := hens n hf
      have hRM : r.Remove fid =
          { r with
            less_k_list := if n.k < r.k then r.less_k_list.erase fid else r.less_k_list
            more_k_list := if n.k < r.k then r.more_k_list else r.more_k_list.erase fid
            curr_size := r.curr_size - 1
            node_store := alistErase r.node_store fid } := by
        unfold Remove
        rw [hf]
      rw [hRM]
      refine ⟨?_, ?_, ?_⟩
      · show r.curr_size - 1 = countEv (alistErase r.node_store fid)
        have hkey := countEv_alistErase_found hf
        rw [evictableCount_eq_countEv] at hcnt
        rw [hev] at hkey
        simp at hkey
        omega
      · intro p hp
        have hpne : p.1 ≠ fid := mem_alistErase_ne hnd hp
        have hpmem : p ∈ r.node_store := (alistErase_sublist _ _).mem hp
        have := hlists p hpmem
        by_cases hk : n.k < r.k <;>
          simp only [if_pos, if_neg, hk, if_true, if_false] <;>
          exact ⟨fun hy => by
              first
                | exact (List.mem_erase_of_ne hpne).mpr (this.1 hy)
                | exact this.1 hy,
            fun hm => by
              first
                | exact (List.mem_erase_of_ne hpne).mpr (this.2 hm)
                | exact this.2 hm⟩
      · show ((alistErase r.node_store fid).map Prod.fst).Nodup
        exact hnd.sublist ((alistErase_sublist _ _).map Prod.fst)

theorem WF_Evict (r : LRUKReplacer) (hwf : r.WF) : (r.Evict).2.WF := by
  obtain ⟨hcnt, hlists, hnd⟩ := hwf
  rw [evictableCount_eq_countEv] at hcnt
  cases hless : r.less_k_list.reverse.find? (evictPred r.node_store) with
  | some f =>
      have hev : r.Evict =
          (some f,
            { r with
              less_k_list := r.less_k_list.erase f
              node_store := alistErase r.node_store f
              curr_size := r.curr_size - 1 }) := by
        unfold Evict
        rw [evictScan_eq_find, hless]
      have hp := List.find?_some hless
      rw [hev]
      cases hfind : alistFind r.node_store f with
      | none => simp [evictPred, hfind] at hp
      | some n =>
          simp only [evictPred, hfind] at hp
          refine ⟨?_, ?_, ?_⟩
          · show r.curr_size - 1 = countEv (alistErase r.node_store f)
            have hkey := countEv_alistErase_found hfind
            rw [hp] at hkey
            simp at hkey
            omega
          · intro p hpmem
            have hpne : p.1 ≠ f := mem_alistErase_ne hnd hpmem
            have hpm : p ∈ r.node_store := (alistErase_sublist _ _).mem hpmem
            have := hlists p hpm
            exact ⟨fun hy => (List.mem_erase_of_ne hpne).mpr (this.1 hy), this.2⟩
          · exact hnd.sublist ((alistErase_sublist _ _).map Prod.fst)
  | none =>
      cases hmore : r.more_k_list.reverse.find? (evictPred r.node_store) with
      | some f =>
          have hev : r.Evict =
              (some f,
                { r with
                  more_k_list := r.more_k_list.erase f
                  node_store := alistErase r.node_store f
                  curr_size := r.curr_size - 1 }) := by
            unfold Evict
            rw [evictScan_eq_find, evictScan_eq_find, hless, hmore]
          have hp := List.find?_some hmore
          rw [hev]
          cases hfind : alistFind r.node_store f with
          | none => simp [evictPred, hfind] at hp
          | some n =>
              simp only [evictPred, hfind] at hp
              refine ⟨?_, ?_, ?_⟩
              · show r.curr_size - 1 = countEv (alistErase r.node_store f)
                have hkey := countEv_alistErase_found hfind
                rw [hp] at hkey
                simp at hkey
                omega
              · intro p hpmem
                have hpne : p.1 ≠ f := mem_alistErase_ne hnd hpmem
                have hpm : p ∈ r.node_store := (alistErase_sublist _ _).mem hpmem
                have := hlists p hpm
                exact ⟨this.1, fun hm => (List.mem_erase_of_ne hpne).mpr (this.2 hm)⟩
              · exact hnd.sublist ((alistErase_sublist _ _).map Prod.fst)
      | none =>
          have hev : r.Evict = (none, r) := by
            unfold Evict
            rw [evictScan_eq_find, evictScan_eq_find, hless, hmore]
          rw [hev]
          exact ⟨by rw [evictableCount_eq_countEv]; exact hcnt, hlists, hnd⟩

theorem WF_RecordAccess (r : LRUKReplacer) (fid : Nat) (hwf : r.WF) :
    (r.RecordAccess fid).WF := by
  obtain ⟨hcnt, hlists, hnd⟩ := hwf
  rw [evictableCount_eq_countEv] at hcnt
  cases hf : alistFind r.node_store fid with
  | some n =>
      have hkey := @countEv_alistInsert_found r.node_store fid n { n with k := n.k + 1 } hf
      have hproj : ({ n with k := n.k + 1 } : LRUKNode).is_evictable = n.is_evictable := rfl
      rw [hproj] at hkey
      have hnd2 : ((alistInsert r.node_store fid { n with k := n.k + 1 }).map Prod.fst).Nodup := by
        rw [map_fst_alistInsert_found (by simp [hf])]
        exact hnd
      by_cases h1 : n.k + 1 = r.k
      · have hRA : r.RecordAccess fid =
            { r with
              node_store := alistInsert r.node_store fid { n with k := n.k + 1 }
              less_k_list := r.less_k_list.erase fid
              more_k_list := fid :: r.more_k_list } := by
          unfold RecordAccess
          rw [hf]
          dsimp only
          rw [hf]
          dsimp only
          rw [if_pos h1]
        rw [hRA]
        refine ⟨by
          show r.curr_size = countEv (alistInsert r.node_store fid { n with k := n.k + 1 })
          omega, ?_, hnd2⟩
        intro p hp
        rcases mem_alistInsert_elim hnd hp with rfl | ⟨hmem, hne⟩
        · refine ⟨fun hlt => absurd hlt (by show ¬(n.k + 1 < r.k); omega), fun _ => ?_⟩
          exact List.mem_cons_self _ _
        · exact ⟨fun hy => (List.mem_erase_of_ne hne).mpr ((hlists p hmem).1 hy),
            fun hm => List.mem_cons_of_mem _ ((hlists p hmem).2 hm)⟩
      · by_cases h2 : n.k + 1 > r.k
        · have hRA : r.RecordAccess fid =
              { r with
                node_store := alistInsert r.node_store fid { n with k := n.k + 1 }
                more_k_list := fid :: r.more_k_list.erase fid } := by
            unfold RecordAccess
            rw [hf]
            dsimp only
            rw [hf]
            dsimp only
            rw [if_neg h1, if_pos h2]
          rw [hRA]
          refine ⟨by
            show r.curr_size = countEv (alistInsert r.node_store fid { n with k := n.k + 1 })
            omega, ?_, hnd2⟩
          intro p hp
          rcases mem_alistInsert_elim hnd hp with rfl | ⟨hmem, hne⟩
          · refine ⟨fun hlt => absurd hlt (by show ¬(n.k + 1 < r.k); omega), fun _ => ?_⟩
            exact List.mem_cons_self _ _
          · exact ⟨(hlists p hmem).1,
              fun hm => List.mem_cons_of_mem _
                ((List.mem_erase_of_ne hne).mpr ((hlists p hmem).2 hm))⟩
        · have hRA : r.RecordAccess fid =
              { r with
                node_store := alistInsert r.node_store fid { n with k := n.k + 1 } } := by
            unfold RecordAccess
            rw [hf]
            dsimp only
            rw [hf]
            dsimp only
            rw [if_neg h1, if_neg h2]
          rw [hRA]
          refine ⟨by
            show r.curr_size = countEv (alistInsert r.node_store fid { n with k := n.k + 1 })
            omega, ?_, hnd2⟩
          intro p hp
          rcases mem_alistInsert_elim hnd hp with rfl | ⟨hmem, hne⟩
          · refine ⟨fun _ => ?_, fun hge => absurd hge (by show ¬(r.k ≤ n.k + 1); omega)⟩
            exact (hlists (fid, n) (alistFind_mem hf)).1 (by show n.k < r.k; omega)
          · exact hlists p hmem
  | none =>
      have hkeys : fid ∉ r.node_store.map Prod.fst := alistFind_eq_none_iff.mp hf
      have hfind1 : alistFind (alistInsert r.node_store fid { k := 0, is_evictable := false }) fid =
          some { k := 0, is_evictable := false } := alistFind_alistInsert_self _ _ _
      have hnd1 : ((alistInsert r.node_store fid
          { k := 0, is_evictable := false }).map Prod.fst).Nodup := by
        rw [map_fst_alistInsert_none hf]
        simp [List.nodup_append, hnd, hkeys]
      have hcnt1 : countEv (alistInsert r.node_store fid { k := 0, is_evictable := false }) =
          countEv r.node_store := by
        have := @countEv_alistInsert_none r.node_store fid { k := 0, is_evictable := false } hf
        simpa using this
      have hkey := @countEv_alistInsert_found
        (alistInsert r.node_store fid { k := 0, is_evictable := false }) fid
        { k := 0, is_evictable := false } { k := 1, is_evictable := false } hfind1
      simp only [show ({ k := 0, is_evictable := false } : LRUKNode).is_evictable = false from rfl,
        show ({ k := 1, is_evictable := false } : LRUKNode).is_evictable = false from rfl] at hkey
      have hnd2 : ((alistInsert (alistInsert r.node_store fid { k := 0, is_evictable := false })
          fid { k := 1, is_evictable := false }).map Prod.fst).Nodup := by
        rw [map_fst_alistInsert_found (by simp [hfind1])]
        exact hnd1
      have hmemelim : ∀ p : Nat × LRUKNode,
          p ∈ alistInsert (alistInsert r.node_store fid { k := 0, is_evictable := false })
            fid { k := 1, is_evictable := false } →
          p = (fid, { k := 1, is_evictable := false }) ∨ (p ∈ r.node_store ∧ p.1 ≠ fid) := by
        intro p hp
        rcases mem_alistInsert_elim hnd1 hp with rfl | ⟨hmem1, hne⟩
        · exact Or.inl rfl
        · rcases mem_alistInsert_elim hnd hmem1 with rfl | ⟨hmem0, -⟩
          · exact absurd rfl hne
          · exact Or.inr ⟨hmem0, hne⟩
      by_cases h1 : (0 : Nat) + 1 = r.k
      · have hRA : r.RecordAccess fid =
            { r with
              node_store := alistInsert (alistInsert r.node_store fid
                { k := 0, is_evictable := false }) fid { k := 1, is_evictable := false }
              less_k_list := (fid :: r.less_k_list).erase fid
              more_k_list := fid :: r.more_k_list } := by
          unfold RecordAccess
          rw [hf]
          dsimp only
          rw [hfind1]
          dsimp only
          rw [if_pos h1]
        rw [hRA]
        refine ⟨by
          show r.curr_size = countEv (alistInsert (alistInsert r.node_store fid
            { k := 0, is_evictable := false }) fid { k := 1, is_evictable := false })
          omega, ?_, hnd2⟩
        intro p hp
        rcases hmemelim p hp with rfl | ⟨hmem, hne⟩
        · refine ⟨fun hlt => absurd hlt (by show ¬((1 : Nat) < r.k); omega), fun _ => ?_⟩
          exact List.mem_cons_self _ _
        · rw [List.erase_cons_head]
          exact ⟨(hlists p hmem).1, fun hm => List.mem_cons_of_mem _ ((hlists p hmem).2 hm)⟩
      · by_cases h2 : (0 : Nat) + 1 > r.k
        · have hRA : r.RecordAccess fid =
              { r with
                node_store := alistInsert (alistInsert r.node_store fid
                  { k := 0, is_evictable := false }) fid { k := 1, is_evictable := false }
                less_k_list := fid :: r.less_k_list
                more_k_list := fid :: r.more_k_list.erase fid } := by
            unfold RecordAccess
            rw [hf]
            dsimp only
            rw [hfind1]
            dsimp only
            rw [if_neg h1, if_pos h2]
          rw [hRA]
          refine ⟨by
            show r.curr_size = countEv (alistInsert (alistInsert r.node_store fid
              { k := 0, is_evictable := false }) fid { k := 1, is_evictable := false })
            omega, ?_, hnd2⟩
          intro p hp
          rcases hmemelim p hp with rfl | ⟨hmem, hne⟩
          · refine ⟨fun hlt => absurd hlt (by show ¬((1 : Nat) < r.k); omega), fun _ => ?_⟩
            exact List.mem_cons_self _ _
          · exact ⟨fun hy => List.mem_cons_of_mem _ ((hlists p hmem).1 hy),
              fun hm => List.mem_cons_of_mem _
                ((List.mem_erase_of_ne hne).mpr ((hlists p hmem).2 hm))⟩
        · have hRA : r.RecordAccess fid =
              { r with
                node_store := alistInsert (alistInsert r.node_store fid
                  { k := 0, is_evictable := false }) fid { k := 1, is_evictable := false }
                less_k_list := fid :: r.less_k_list } := by
            unfold RecordAccess
            rw [hf]
            dsimp only
            rw [hfind1]
            dsimp only
            rw [if_neg h1, if_neg h2]
          rw [hRA]
          refine ⟨by
            show r.curr_size = countEv (alistInsert (alistInsert r.node_store fid
              { k := 0, is_evictable := false }) fid { k := 1, is_evictable := false })
            omega, ?_, hnd2⟩
          intro p hp
          rcases hmemelim p hp with rfl | ⟨hmem, hne⟩
          · refine ⟨fun _ => List.mem_cons_self _ _,
              fun hge => absurd hge (by show ¬(r.k ≤ (1 : Nat)); omega)⟩
          · exact ⟨fun hy => List.mem_cons_of_mem _ ((hlists p hmem).1 hy),
              (hlists p hmem).2⟩

end LRUKReplacer

/-! ## Buffer pool manager (src/buffer/buffer_pool_manager.cpp)

The BPM holds an array of `pool_size_` pages, a page table from page id to
frame id (std::unordered_map, modelled as an association list), a free list
(std::list, front-popped and back-pushed), the LRU-K replacer, and the
monotonic `next_page_id_` counter.  `DiskScheduler::Schedule` followed by
`future.get()` is synchronous; the model keeps the backing store of the
disk manager (`disk`) and the ordered trace of every scheduled request
(`sched_log`).  Page contents are abstract byte vectors; `ResetMemory`
yields the zeroed page, modelled as `[]`, which is also what reading a
never-written disk page returns. -/

abbrev PageData := List Nat

/-- One `DiskRequest` handed to `DiskScheduler::Schedule`. -/
structure DiskRequest : Type where
  is_write : Bool
  data : PageData
  page_id : Int
deriving DecidableEq

/-- A `Page`: `page_id_`, `pin_count_`, `is_dirty_` and the data array.  The
default-constructed page has `INVALID_PAGE_ID` (-1), pin count 0, clean,
zeroed data. -/
structure Page : Type where
  page_id : Int
  pin_count : Nat
  is_dirty : Bool
  data : PageData
deriving DecidableEq

structure BufferPoolManager : Type where
  pool_size : Nat
  pages : List Page
  page_table : List (Int × Nat)
  free_list : List Nat
  replacer : LRUKReplacer
  next_page_id : Int
  disk : List (Int × PageData)
  sched_log : List DiskRequest
deriving DecidableEq

namespace BufferPoolManager

/-- `BufferPoolManager::BufferPoolManager` (buffer_pool_manager.cpp lines
21-37): allocate `pool_size` default pages and put every frame in the free
list. -/
def initBPM (pool_size replacer_k : Nat) : BufferPoolManager :=
  { pool_size := pool_size
    pages := List.replicate pool_size { page_id := -1, pin_count := 0, is_dirty := false, data := [] }
    page_table := []
    free_list := List.range pool_size
    replacer := LRUKReplacer.init pool_size replacer_k
    next_page_id := 0
    disk := []
    sched_log := [] }

/-- `pages_[fid]` (reads outside the array never occur in reachable calls). -/
def getPage (s : BufferPoolManager) (fid : Nat) : Page :=
  s.pages.getD fid { page_id := -1, pin_count := 0, is_dirty := false, data := [] }

def setPage (s : BufferPoolManager) (fid : Nat) (p : Page) : BufferPoolManager :=
  { s with pages := s.pages.set fid p }

/-- Schedule a write request and await it: the disk page takes the given
contents and the request is appended to the trace. -/
def schedWrite (s : BufferPoolManager) (pid : Int) (d : PageData) : BufferPoolManager :=
  { s with
    disk := alistInsert s.disk pid d
    sched_log := s.sched_log ++ [{ is_write := true, data := d, page_id := pid }] }

/-- Schedule a read request into frame `fid` and await it: the frame's data
becomes the disk page's contents. -/
def schedRead (s : BufferPoolManager) (fid : Nat) (pid : Int) : BufferPoolManager :=
  let d := (alistFind s.disk pid).getD []
  let old := s.getPage fid
  { s.setPage fid { old with data := d } with
    sched_log := s.sched_log ++ [{ is_write := false, data := d, page_id := pid }] }

/-- `BufferPoolManager::NewPage` (buffer_pool_manager.cpp lines 45-84).
Returns the allocated page id and the frame on success (the page id is also
what the out parameter receives); `none` when no frame is free and nothing
is evictable.  The source order is kept: on eviction the old mapping is
erased, a dirty victim is written and awaited, then the frame is zeroed and
reinstalled. -/
def NewPage (s : BufferPoolManager) : Option (Int × Nat) × BufferPoolManager :=
  match s.free_list with
  | [] =>
      match s.replacer.Evict with
      | (some fid, rep) =>
          let victim := s.getPage fid
          let s1 := { s with replacer := rep, page_table := alistErase s.page_table victim.page_id }
          let s2 := if victim.is_dirty then s1.schedWrite victim.page_id victim.data else s1
          let new_pid := s2.next_page_id
          let s3 := { s2 with next_page_id := s2.next_page_id + 1 }
          let s4 := s3.setPage fid { page_id := new_pid, pin_count := 1, is_dirty := false, data := [] }
          let s5 := { s4 with page_table := alistInsert s4.page_table new_pid fid }
          let s6 := { s5 with replacer := (s5.replacer.RecordAccess fid).SetEvictable fid false }
          (some (new_pid, fid), s6)
      | (none, rep) => (none, { s with replacer := rep })
  | fid :: rest =>
      let new_pid := s.next_page_id
      let s1 := { s with free_list := rest, next_page_id := s.next_page_id + 1 }
      let old := s.getPage fid
      let s2 := s1.setPage fid { old with page_id := new_pid, pin_count := 1, data := [] }
      let s3 := { s2 with page_table := alistInsert s2.page_table new_pid fid }
      let s4 := { s3 with replacer := (s3.replacer.RecordAccess fid).SetEvictable fid false }
      (some (new_pid, fid), s4)

/-- `BufferPoolManager::FetchPage` (buffer_pool_manager.cpp lines 86-137):
hit increments the pin count and records an access; miss acquires a frame
exactly as `NewPage` (writing a dirty victim first) and then reads the page
from disk before returning. -/
def FetchPage (s : BufferPoolManager) (pid : Int) : Option Nat × BufferPoolManager :=
  match alistFind s.page_table pid with
  | some fid =>
      let old := s.getPage fid
      let s1 := s.setPage fid { old with pin_count := old.pin_count + 1 }
      let s2 := { s1 with replacer := (s1.replacer.RecordAccess fid).SetEvictable fid false }
      (some fid, s2)
  | none =>
      match s.free_list with
      | [] =>
          match s.replacer.Evict with
          | (some fid, rep) =>
              let victim := s.getPage fid
              let s1 := { s with replacer := rep, page_table := alistErase s.page_table victim.page_id }
              let s2 := if victim.is_dirty then s1.schedWrite victim.page_id victim.data else s1
              let s3 := s2.setPage fid { page_id := pid, pin_count := 1, is_dirty := false, data := [] }
              let s4 := { s3 with page_table := alistInsert s3.page_table pid fid }
              let s5 := { s4 with replacer := (s4.replacer.RecordAccess fid).SetEvictable fid false }
              (some fid, s5.schedRead fid pid)
          | (none, rep) => (none, { s with replacer := rep })
      | fid :: rest =>
          let s1 := { s with free_list := rest }
          let s2 := s1.setPage fid { page_id := pid, pin_count := 1, is_dirty := false, data := [] }
          let s3 := { s2 with page_table := alistInsert s2.page_table pid fid }
          let s4 := { s3 with replacer := (s3.replacer.RecordAccess fid).SetEvictable fid false }
          (some fid, s4.schedRead fid pid)

/-- `BufferPoolManager::UnpinPage` (buffer_pool_manager.cpp lines 139-153). -/
def UnpinPage (s : BufferPoolManager) (pid : Int) (is_dirty : Bool) : Bool × BufferPoolManager :=
  match alistFind s.page_table pid with
  | some fid =>
      let p := s.getPage fid
      if p.pin_count = 0 then (false, s)
      else
        let p' := { p with pin_count := p.pin_count - 1, is_dirty := p.is_dirty || is_dirty }
        let s1 := s.setPage fid p'
        let s2 :=
          if p'.pin_count = 0 then { s1 with replacer := s1.replacer.SetEvictable fid true }
          else s1
        (true, s2)
  | none => (false, s)

/-- `BufferPoolManager::FlushPage` (buffer_pool_manager.cpp lines 155-166):
write the resident frame through the scheduler (awaited), clear its dirty
flag, return true; false when not resident. -/
def FlushPage (s : BufferPoolManager) (pid : Int) : Bool × BufferPoolManager :=
  match alistFind s.page_table pid with
  | some fid =>
      let s1 := s.schedWrite pid (s.getPage fid).data
      let old := s1.getPage fid
      (true, s1.setPage fid { old with is_dirty := false })
  | none => (false, s)

/-- `BufferPoolManager::DeletePage` (buffer_pool_manager.cpp lines 179-195):
true when not resident; false when pinned; otherwise remove from the
replacer, return the frame to the free list, clear its metadata and erase
the mapping.  `DeallocatePage` is modelled from the spec as the no-op
imitation it names.  Note that no disk write is issued for a dirty frame. -/
def DeletePage (s : BufferPoolManager) (pid : Int) : Bool × BufferPoolManager :=
  match alistFind s.page_table pid with
  | some fid =>
      if 0 < (s.getPage fid).pin_count then (false, s)
      else
        let s1 := { s with replacer := s.replacer.Remove fid, free_list := s.free_list ++ [fid] }
        let s2 := s1.setPage fid { page_id := -1, pin_count := 0, is_dirty := false, data := [] }
        (true, { s2 with page_table := alistErase s2.page_table pid })
  | none => (true, s)

end BufferPoolManager

namespace BufferPoolManager

theorem getPage_setPage_self (s : BufferPoolManager) (fid : Nat) (p : Page)
    (h : fid < s.pages.length) : (s.setPage fid p).getPage fid = p := by
  simp [getPage, setPage, List.getD_eq_getElem?_getD, List.getElem?_set_self, h]

theorem getPage_setPage_ne (s : BufferPoolManager) (fid fid' : Nat) (p : Page)
    (h : fid' ≠ fid) : (s.setPage fid p).getPage fid' = s.getPage fid' := by
  simp [getPage, setPage, List.getD_eq_getElem?_getD, List.getElem?_set_ne (Ne.symm h)]

/-- One-frame pool after `NewPage` and `UnpinPage(0, true)`: page 0 is
resident in frame 0, dirty, unpinned and evictable, the free list is empty,
and no disk request has ever been scheduled. -/
def c1state : BufferPoolManager := (UnpinPage (NewPage (initBPM 1 2)).2 0 true).2

/-- C1 counterexample: `DeletePage` discards a dirty page without any disk
write.  In `c1state` page 0 is dirty and unpinned; `DeletePage(0)` succeeds,
the page leaves the pool, and the scheduler trace stays empty — the page's
contents were never written, so its frame is reset without the write the
claim requires for DeletePage. -/
theorem deletepage_discards_dirty_counterexample :
    (c1state.getPage 0).is_dirty = true ∧ (c1state.getPage 0).pin_count = 0 ∧
      alistFind c1state.page_table 0 = some 0 ∧ c1state.sched_log = [] ∧
      (c1state.DeletePage 0).1 = true ∧
      (c1state.DeletePage 0).2.sched_log = [] ∧
      alistFind (c1state.DeletePage 0).2.disk 0 = none ∧
      alistFind (c1state.DeletePage 0).2.page_table 0 = none := by
  decide

/-- C1 amended: restricted to the eviction paths of `NewPage` and
`FetchPage`, a dirty victim is always written through the disk scheduler
(and awaited, the operations being synchronous in the model) before the
frame is reset and reused — the scheduled write carries the victim's
pre-eviction page id and contents, and the disk afterwards holds those
contents.  `DeletePage`, by contrast, discards a dirty page without a write
(see the counterexample). -/
theorem dirty_eviction_written (s : BufferPoolManager) (fid : Nat)
    (hfree : s.free_list = []) (hev : (s.replacer.Evict).1 = some fid)
    (hdirty : (s.getPage fid).is_dirty = true) :
    ((s.NewPage).2.sched_log =
        s.sched_log ++
          [{ is_write := true, data := (s.getPage fid).data, page_id := (s.getPage fid).page_id }] ∧
      alistFind (s.NewPage).2.disk (s.getPage fid).page_id = some (s.getPage fid).data) ∧
      ∀ pid, alistFind s.page_table pid = none →
        ∃ rdata, (s.FetchPage pid).2.sched_log =
            s.sched_log ++
              [{ is_write := true, data := (s.getPage fid).data,
                  page_id := (s.getPage fid).page_id },
                { is_write := false, data := rdata, page_id := pid }] ∧
          alistFind (s.FetchPage pid).2.disk (s.getPage fid).page_id =
            some (s.getPage fid).data := by
  have hpair : s.replacer.Evict = (some fid, (s.replacer.Evict).2) := by
    rw [← hev]
  constructor
  · unfold NewPage
    rw [hfree, hpair]
    dsimp only
    rw [if_pos hdirty]
    constructor
    · simp [schedWrite, setPage]
    · simp [schedWrite, setPage, alistFind_alistInsert_self]
  · intro pid hpid
    unfold FetchPage
    rw [hpid, hfree, hpair]
    dsimp only
    rw [if_pos hdirty]
    refine ⟨(alistFind (alistInsert s.disk (s.getPage fid).page_id (s.getPage fid).data)
        pid).getD [], ?_, ?_⟩
    · simp [schedWrite, schedRead, setPage]
    · simp [schedWrite, schedRead, setPage, alistFind_alistInsert_self]

/-- C1 witness: in `c1state` the sole frame holds dirty page 0; `NewPage`
and `FetchPage(5)` each write it out before reusing the frame. -/
theorem dirty_eviction_written_witness :
    ((c1state.NewPage).2.sched_log =
        c1state.sched_log ++
          [{ is_write := true, data := (c1state.getPage 0).data,
              page_id := (c1state.getPage 0).page_id }] ∧
      alistFind (c1state.NewPage).2.disk (c1state.getPage 0).page_id =
        some (c1state.getPage 0).data) ∧
      ∃ rdata, (c1state.FetchPage 5).2.sched_log =
          c1state.sched_log ++
            [{ is_write := true, data := (c1state.getPage 0).data,
                page_id := (c1state.getPage 0).page_id },
              { is_write := false, data := rdata, page_id := 5 }] ∧
        alistFind (c1state.FetchPage 5).2.disk (c1state.getPage 0).page_id =
          some (c1state.getPage 0).data :=
  ⟨(dirty_eviction_written c1state 0 (by decide) (by decide) (by decide)).1,
    (dirty_eviction_written c1state 0 (by decide) (by decide) (by decide)).2 5 (by decide)⟩

/-- C5: `UnpinPage` returns false and changes nothing iff the page is not
resident or its pin count is already 0; otherwise it decrements the pin
count, ORs the dirty argument into the frame's dirty flag, marks the frame
evictable exactly when the pin count reaches 0, and returns true with the
page table, free list and disk trace untouched. -/
theorem unpinpage_contract (s : BufferPoolManager) (pid : Int) (d : Bool) :
    (alistFind s.page_table pid = none → s.UnpinPage pid d = (false, s)) ∧
      (∀ fid, alistFind s.page_table pid = some fid → (s.getPage fid).pin_count = 0 →
        s.UnpinPage pid d = (false, s)) ∧
      (∀ fid, alistFind s.page_table pid = some fid → fid < s.pages.length →
        0 < (s.getPage fid).pin_count →
        (s.UnpinPage pid d).1 = true ∧
          ((s.UnpinPage pid d).2.getPage fid).pin_count = (s.getPage fid).pin_count - 1 ∧
          ((s.UnpinPage pid d).2.getPage fid).is_dirty = ((s.getPage fid).is_dirty || d) ∧
          ((s.getPage fid).pin_count = 1 →
            (s.UnpinPage pid d).2.replacer = s.replacer.SetEvictable fid true) ∧
          (1 < (s.getPage fid).pin_count → (s.UnpinPage pid d).2.replacer = s.replacer) ∧
          (s.UnpinPage pid d).2.page_table = s.page_table ∧
          (s.UnpinPage pid d).2.free_list = s.free_list ∧
          (s.UnpinPage pid d).2.sched_log = s.sched_log) := by
  refine ⟨fun hnone => ?_, fun fid hfid hpin => ?_, fun fid hfid hlen hpin => ?_⟩
  · unfold UnpinPage
    rw [hnone]
  · unfold UnpinPage
    rw [hfid]
    dsimp only
    rw [if_pos hpin]
  · have hne : (s.getPage fid).pin_count ≠ 0 := Nat.pos_iff_ne_zero.mp hpin
    unfold UnpinPage
    rw [hfid]
    dsimp only
    rw [if_neg hne]
    by_cases hone : (s.getPage fid).pin_count - 1 = 0
    · rw [if_pos hone]
      refine ⟨rfl, ?_, ?_, fun _ => rfl, fun hgt => ?_, rfl, rfl, rfl⟩
      · simp [getPage, setPage, List.getD_eq_getElem?_getD, List.getElem?_set_self hlen]
      · simp [getPage, setPage, List.getD_eq_getElem?_getD, List.getElem?_set_self hlen]
      · omega
    · rw [if_neg hone]
      refine ⟨rfl, ?_, ?_, fun heq => ?_, fun _ => rfl, rfl, rfl, rfl⟩
      · simp [getPage, setPage, List.getD_eq_getElem?_getD, List.getElem?_set_self hlen]
      · simp [getPage, setPage, List.getD_eq_getElem?_getD, List.getElem?_set_self hlen]
      · omega

/-- C5 witness: unpinning the single pinned page of a fresh pool. -/
theorem unpinpage_contract_witness :
    ((UnpinPage (NewPage (initBPM 1 2)).2 0 true).1 = true ∧
        (((UnpinPage (NewPage (initBPM 1 2)).2 0 true).2.getPage 0).pin_count =
          (((NewPage (initBPM 1 2)).2.getPage 0).pin_count - 1))) ∧
      UnpinPage (initBPM 1 2) 7 false = (false, initBPM 1 2) :=
  ⟨⟨((unpinpage_contract (NewPage (initBPM 1 2)).2 0 true).2.2 0 (by decide) (by decide)
        (by decide)).1,
      ((unpinpage_contract (NewPage (initBPM 1 2)).2 0 true).2.2 0 (by decide) (by decide)
        (by decide)).2.1⟩,
    (unpinpage_contract (initBPM 1 2) 7 false).1 (by decide)⟩

/-- C7: `FlushPage` on a resident page writes the frame's contents through
the disk scheduler under the requested page id, clears the dirty flag even
when the page is pinned, returns true, and leaves the pin count, page
table, free list and the whole replacer (hence evictability) unchanged; on
a non-resident page it returns false and changes nothing. -/
theorem flushpage_contract (s : BufferPoolManager) (pid : Int) :
    (∀ fid, alistFind s.page_table pid = some fid → fid < s.pages.length →
        (s.FlushPage pid).1 = true ∧
          (s.FlushPage pid).2.sched_log =
            s.sched_log ++ [{ is_write := true, data := (s.getPage fid).data, page_id := pid }] ∧
          alistFind (s.FlushPage pid).2.disk pid = some (s.getPage fid).data ∧
          ((s.FlushPage pid).2.getPage fid).is_dirty = false ∧
          ((s.FlushPage pid).2.getPage fid).pin_count = (s.getPage fid).pin_count ∧
          ((s.FlushPage pid).2.getPage fid).data = (s.getPage fid).data ∧
          (s.FlushPage pid).2.page_table = s.page_table ∧
          (s.FlushPage pid).2.free_list = s.free_list ∧
          (s.FlushPage pid).2.replacer = s.replacer) ∧
      (alistFind s.page_table pid = none → s.FlushPage pid = (false, s)) := by
  constructor
  · intro fid hfid hlen
    unfold FlushPage
    rw [hfid]
    have hlen' : fid < (s.schedWrite pid (s.getPage fid).data).pages.length := by
      simpa [schedWrite] using hlen
    have hget : (s.schedWrite pid (s.getPage fid).data).getPage fid = s.getPage fid := by
      simp [schedWrite, getPage]
    refine ⟨rfl, ?_, ?_, ?_, ?_, ?_, rfl, rfl, rfl⟩
    · simp [schedWrite, setPage]
    · simp [schedWrite, setPage, alistFind_alistInsert_self]
    · simp [getPage_setPage_self _ _ _ hlen']
    · simp [getPage_setPage_self _ _ _ hlen', hget]
    · simp [getPage_setPage_self _ _ _ hlen', hget]
  · intro hnone
    unfold FlushPage
    rw [hnone]

/-- C7 witness: flushing the pinned page 0 of a one-frame pool. -/
theorem flushpage_contract_witness :
    ((FlushPage (NewPage (initBPM 1 2)).2 0).1 = true ∧
        ((FlushPage (NewPage (initBPM 1 2)).2 0).2.getPage 0).is_dirty = false) ∧
      FlushPage (initBPM 1 2) 3 = (false, initBPM 1 2) :=
  ⟨⟨((flushpage_contract (NewPage (initBPM 1 2)).2 0).1 0 (by decide) (by decide)).1,
      ((flushpage_contract (NewPage (initBPM 1 2)).2 0).1 0 (by decide) (by decide)).2.2.2.1⟩,
    (flushpage_contract (initBPM 1 2) 3).2 (by decide)⟩

end BufferPoolManager

/-! ## Page guards (src/storage/page/page_guard.cpp)

A `BasicPageGuard` carries the `bpm_` pointer (only its null-ness matters:
there is a single BPM, so the guard records whether the pointer is set), the
`page_` frame pointer (null or a frame id), and the accumulated `is_dirty_`
flag. -/

structure BasicPageGuard : Type where
  bpm_nonnull : Bool
  page : Option Nat
  is_dirty : Bool
deriving DecidableEq

namespace BasicPageGuard

/-- Modelled from the spec: page_guard.h is absent from the sources.  Spec
4.C provides the `PageId()` accessor on guards; it reads the page id
through the guard's frame pointer, so calling it on a guard holding no
frame dereferences a null pointer — the error case. -/
def PageIdOf (g : BasicPageGuard) (s : BufferPoolManager) : Except Unit Int :=
  match g.page with
  | some fid => .ok (s.getPage fid).page_id
  | none => .error ()

/-- `BasicPageGuard::Drop` (page_guard.cpp lines 15-22): when `bpm_` is
non-null — even if `page_` is null — call `UnpinPage(PageId(), is_dirty_)`;
then null out all fields.  The error value is the undefined null
dereference inside `PageId()` when the guard holds no frame. -/
def Drop (g : BasicPageGuard) (s : BufferPoolManager) :
    Except Unit (BasicPageGuard × BufferPoolManager) :=
  if g.bpm_nonnull then
    match g.PageIdOf s with
    | .ok pid => .ok (⟨false, none, false⟩, (s.UnpinPage pid g.is_dirty).2)
    | .error e => .error e
  else .ok (⟨false, none, false⟩, s)

/-- `BasicPageGuard::BasicPageGuard(BasicPageGuard &&that)` (page_guard.cpp
lines 6-13): copy the three fields, then null the source.  Returns the pair
(constructed guard, source after the move); no BPM call occurs, so no pin
count can change. -/
def moveCtor (that : BasicPageGuard) : BasicPageGuard × BasicPageGuard :=
  (⟨that.bpm_nonnull, that.page, that.is_dirty⟩, ⟨false, none, false⟩)

/-- `BasicPageGuard::operator=(BasicPageGuard &&that)` (page_guard.cpp lines
24-33): `Drop()` the currently owned resource first, then take over the
source's fields and null the source.  Returns (assigned-to guard, source
after the move, BPM state). -/
def moveAssign (g that : BasicPageGuard) (s : BufferPoolManager) :
    Except Unit (BasicPageGuard × BasicPageGuard × BufferPoolManager) :=
  match g.Drop s with
  | .ok (_, s1) => .ok (⟨that.bpm_nonnull, that.page, that.is_dirty⟩, ⟨false, none, false⟩, s1)
  | .error e => .error e

end BasicPageGuard

/-- `BufferPoolManager::FetchPageBasic` (buffer_pool_manager.cpp line 199):
wrap the `FetchPage` result — a possibly null page pointer — with the
always non-null `this` pointer. -/
def BufferPoolManager.FetchPageBasic (s : BufferPoolManager) (pid : Int) :
    BasicPageGuard × BufferPoolManager :=
  ((⟨true, (s.FetchPage pid).1, false⟩ : BasicPageGuard), (s.FetchPage pid).2)

/-- A one-frame pool whose only frame is pinned: fetching any other page
fails, and `FetchPageBasic` wraps the null result in a guard whose `bpm_`
is still non-null. -/
def c4pool : BufferPoolManager := (BufferPoolManager.NewPage (BufferPoolManager.initBPM 1 2)).2

/-- C4, evaluated at the failing input: the guard returned by a failed
`FetchPageBasic` has a non-null `bpm_` and a null `page_`; `Drop` guards the
unpin on `bpm_ != nullptr` (not on the page pointer, unlike the Read/Write
variants), so it calls `UnpinPage(PageId(), ...)` and `PageId()`
dereferences the null frame pointer — not the no-op the claim requires. -/
theorem basic_guard_drop_null_deref :
    (c4pool.FetchPageBasic 1).1.bpm_nonnull = true ∧
      (c4pool.FetchPageBasic 1).1.page = none ∧
      (c4pool.FetchPageBasic 1).1.Drop (c4pool.FetchPageBasic 1).2 = .error () := by
  refine ⟨rfl, rfl, rfl⟩

/-- C8: move semantics of `BasicPageGuard`.  Move construction transfers
the fields to the new guard and empties the source without any BPM call
(so no pin count changes).  Move assignment from a guard holding frame
`fP` into a guard holding a different resident page in frame `fQ` first
drops the assigned-to guard — decrementing page Q's pin count — then
transfers, leaving the source empty and frame `fP`'s pin count unchanged. -/
theorem guard_move_semantics (s : BufferPoolManager) (fP fQ : Nat) (gd hd : Bool)
    (hQres : alistFind s.page_table (s.getPage fQ).page_id = some fQ)
    (hQpin : 0 < (s.getPage fQ).pin_count) (hQlen : fQ < s.pages.length) (hPQ : fP ≠ fQ) :
    BasicPageGuard.moveCtor ⟨true, some fP, gd⟩ =
        (⟨true, some fP, gd⟩, ⟨false, none, false⟩) ∧
      ∃ s1, BasicPageGuard.moveAssign ⟨true, some fQ, hd⟩ ⟨true, some fP, gd⟩ s =
          .ok (⟨true, some fP, gd⟩, ⟨false, none, false⟩, s1) ∧
        (s1.getPage fQ).pin_count = (s.getPage fQ).pin_count - 1 ∧
        (s1.getPage fP).pin_count = (s.getPage fP).pin_count := by
  refine ⟨rfl, (s.UnpinPage (s.getPage fQ).page_id hd).2, ?_, ?_, ?_⟩
  · unfold BasicPageGuard.moveAssign BasicPageGuard.Drop BasicPageGuard.PageIdOf
    rfl
  · unfold BufferPoolManager.UnpinPage
    rw [hQres]
    dsimp only
    rw [if_neg (Nat.pos_iff_ne_zero.mp hQpin)]
    by_cases hone : (s.getPage fQ).pin_count - 1 = 0
    · rw [if_pos hone]
      simp [BufferPoolManager.getPage, BufferPoolManager.setPage,
        List.getD_eq_getElem?_getD, List.getElem?_set_self hQlen]
    · rw [if_neg hone]
      simp [BufferPoolManager.getPage, BufferPoolManager.setPage,
        List.getD_eq_getElem?_getD, List.getElem?_set_self hQlen]
  · unfold BufferPoolManager.UnpinPage
    rw [hQres]
    dsimp only
    rw [if_neg (Nat.pos_iff_ne_zero.mp hQpin)]
    by_cases hone : (s.getPage fQ).pin_count - 1 = 0
    · rw [if_pos hone]
      simp [BufferPoolManager.getPage, BufferPoolManager.setPage,
        List.getD_eq_getElem?_getD, List.getElem?_set_ne (Ne.symm hPQ)]
    · rw [if_neg hone]
      simp [BufferPoolManager.getPage, BufferPoolManager.setPage,
        List.getD_eq_getElem?_getD, List.getElem?_set_ne (Ne.symm hPQ)]

/-- Two-frame pool with pages 0 and 1 pinned in frames 0 and 1. -/
def c8pool : BufferPoolManager :=
  (BufferPoolManager.NewPage (BufferPoolManager.NewPage (BufferPoolManager.initBPM 2 2)).2).2

/-- C8 witness: moving between guards on the two pinned pages of `c8pool`. -/
theorem guard_move_semantics_witness :
    BasicPageGuard.moveCtor ⟨true, some 0, false⟩ =
        (⟨true, some 0, false⟩, ⟨false, none, false⟩) ∧
      ∃ s1, BasicPageGuard.moveAssign ⟨true, some 1, false⟩ ⟨true, some 0, false⟩ c8pool =
          .ok (⟨true, some 0, false⟩, ⟨false, none, false⟩, s1) ∧
        (s1.getPage 1).pin_count = (c8pool.getPage 1).pin_count - 1 ∧
        (s1.getPage 0).pin_count = (c8pool.getPage 0).pin_count :=
  guard_move_semantics c8pool 0 1 false false (by decide) (by decide) (by decide) (by decide)

theorem lor_two_pow_of_lt {a k : Nat} (h : a < 2 ^ k) : a ||| 2 ^ k = a + 2 ^ k := by
  apply Nat.eq_of_testBit_eq
  intro i
  rw [Nat.testBit_lor]
  rcases lt_trichotomy i k with hik | rfl | hik
  · have h2 : Nat.testBit (2 ^ k) i = false := by
      simp only [Nat.testBit_two_pow]
      simp
      omega
    rw [h2, Bool.or_false, Nat.testBit_to_div_mod, Nat.testBit_to_div_mod]
    have hsplit : 2 ^ k = 2 ^ (k - i - 1) * 2 * 2 ^ i := by
      rw [Nat.mul_assoc, Nat.mul_comm 2 (2 ^ i), ← Nat.pow_succ, ← Nat.pow_add]
      congr 1
      omega
    have hdiv : (a + 2 ^ k) / 2 ^ i = a / 2 ^ i + 2 ^ (k - i - 1) * 2 := by
      rw [hsplit, Nat.add_mul_div_right _ _ (Nat.pos_pow_of_pos i (by norm_num))]
    rw [hdiv]
    have hmod : (a / 2 ^ i + 2 ^ (k - i - 1) * 2) % 2 = a / 2 ^ i % 2 := by omega
    rw [hmod]
  · have h1 : Nat.testBit a i = false := Nat.testBit_lt_two_pow h
    have h2 : Nat.testBit (2 ^ i) i = true := by simp [Nat.testBit_two_pow]
    rw [h1, h2, Nat.testBit_to_div_mod]
    have hone : (a + 2 ^ i) / 2 ^ i = 1 := by
      rw [Nat.add_div_right _ (Nat.pos_pow_of_pos i (by norm_num)), Nat.div_eq_of_lt h]
    simp [hone]
  · have h1 : Nat.testBit a i = false :=
      Nat.testBit_lt_two_pow (lt_trans h (Nat.pow_lt_pow_right (by norm_num) hik))
    have h2 : Nat.testBit (2 ^ k) i = false := by
      simp only [Nat.testBit_two_pow]
      simp
      omega
    have h3 : Nat.testBit (a + 2 ^ k) i = false := by
      apply Nat.testBit_lt_two_pow
      have : 2 ^ k + 2 ^ k ≤ 2 ^ i := by
        rw [← Nat.two_mul, ← Nat.pow_succ']
        exact Nat.pow_le_pow_right (by norm_num) hik
      omega
    rw [h1, h2, h3]
    rfl

/-! ## Extendible hash table directory
(src/storage/page/extendible_htable_directory_page.cpp and
src/container/disk/hash/disk_extendible_hash_table.cpp)

The directory page holds `max_depth_`, `global_depth_`, the
`bucket_page_ids_` array and the parallel `local_depths_` array; the arrays
are modelled as total functions on slot indices (the C++ arrays have
capacity `1 << max_depth_`; only indices below `Size()` are meaningful). -/

def INVALID_PAGE_ID : Int := -1

structure ExtendibleHTableDirectoryPage : Type where
  max_depth : Nat
  global_depth : Nat
  bucket_page_ids : Nat → Int
  local_depths : Nat → Nat

namespace ExtendibleHTableDirectoryPage

/-- `Size()`: `1 << global_depth_`. -/
def Size (d : ExtendibleHTableDirectoryPage) : Nat := 1 <<< d.global_depth

/-- `MaxSize()`: `1 << max_depth_`. -/
def MaxSize (d : ExtendibleHTableDirectoryPage) : Nat := 1 <<< d.max_depth

/-- `HashToBucketIndex`: `hash & ((1 << global_depth_) - 1)`. -/
def HashToBucketIndex (d : ExtendibleHTableDirectoryPage) (hash : Nat) : Nat :=
  hash &&& ((1 <<< d.global_depth) - 1)

def GetBucketPageId (d : ExtendibleHTableDirectoryPage) (bucket_idx : Nat) : Int :=
  d.bucket_page_ids bucket_idx

def SetBucketPageId (d : ExtendibleHTableDirectoryPage) (bucket_idx : Nat) (bucket_page_id : Int) :
    ExtendibleHTableDirectoryPage :=
  { d with bucket_page_ids := fun j => if j = bucket_idx then bucket_page_id else d.bucket_page_ids j }

def GetLocalDepth (d : ExtendibleHTableDirectoryPage) (bucket_idx : Nat) : Nat :=
  d.local_depths bucket_idx

def SetLocalDepth (d : ExtendibleHTableDirectoryPage) (bucket_idx : Nat) (local_depth : Nat) :
    ExtendibleHTableDirectoryPage :=
  { d with local_depths := fun j => if j = bucket_idx then local_depth else d.local_depths j }

/-- `IncrLocalDepth`: `++local_depths_[bucket_idx]`. -/
def IncrLocalDepth (d : ExtendibleHTableDirectoryPage) (bucket_idx : Nat) :
    ExtendibleHTableDirectoryPage :=
  d.SetLocalDepth bucket_idx (d.local_depths bucket_idx + 1)

/-- `GetLocalDepthMask`: `(1 << local_depths_[bucket_idx]) - 1`. -/
def GetLocalDepthMask (d : ExtendibleHTableDirectoryPage) (bucket_idx : Nat) : Nat :=
  (1 <<< d.local_depths bucket_idx) - 1

end ExtendibleHTableDirectoryPage

/-- The increasing sequence of loop counters `i = first, first + dist, ...`
bounded by `size` (the directory size), as visited by the
`UpdateDirectoryMapping` for-loop. -/
def udmIndices (first dist size : Nat) : List Nat :=
  (List.range size).filter fun i => first ≤ i ∧ (i - first) % dist = 0

/-- `DiskExtendibleHashTable::UpdateDirectoryMapping`
(disk_extendible_hash_table.cpp lines 182-195): starting from
`new_first_bucket_idx = old_bucket_idx & (local_depth_mask >> 1)` and
`prime_idx = new_first_bucket_idx | (1 << (new_local_depth - 1))`, and
stepping both by `1 << new_local_depth` while `i < Size()`, set slot `i`'s
bucket page id to the new bucket page id and set the local depths of both
`i` and `prime_idx` to the new local depth. -/
def updateDirectoryMapping (directory : ExtendibleHTableDirectoryPage) (old_bucket_idx : Nat)
    (new_bucket_page_id : Int) (new_local_depth : Nat) (local_depth_mask : Nat) :
    ExtendibleHTableDirectoryPage :=
  let new_first_bucket_idx := old_bucket_idx &&& (local_depth_mask >>> 1)
  let prime_base := new_first_bucket_idx ||| (1 <<< (new_local_depth - 1))
  let dist := 1 <<< new_local_depth
  (udmIndices new_first_bucket_idx dist directory.Size).foldl
    (fun acc i =>
      ((acc.SetBucketPageId i new_bucket_page_id).SetLocalDepth i new_local_depth).SetLocalDepth
        (prime_base + (i - new_first_bucket_idx)) new_local_depth)
    directory

theorem udm_foldl_global (pid : Int) (dnew : Nat) (f : Nat → Nat) (l : List Nat)
    (dir : ExtendibleHTableDirectoryPage) :
    (l.foldl (fun acc i =>
        ((acc.SetBucketPageId i pid).SetLocalDepth i dnew).SetLocalDepth (f i) dnew)
      dir).global_depth = dir.global_depth := by
  induction l generalizing dir with
  | nil => rfl
  | cons i l ih =>
      rw [List.foldl_cons, ih]
      rfl

theorem udm_foldl_bucket (pid : Int) (dnew : Nat) (f : Nat → Nat) (l : List Nat)
    (dir : ExtendibleHTableDirectoryPage) (j : Nat) :
    (l.foldl (fun acc i =>
        ((acc.SetBucketPageId i pid).SetLocalDepth i dnew).SetLocalDepth (f i) dnew)
      dir).bucket_page_ids j = if j ∈ l then pid else dir.bucket_page_ids j := by
  induction l generalizing dir with
  | nil => simp
  | cons i l ih =>
      rw [List.foldl_cons, ih]
      by_cases hjl : j ∈ l
      · simp [hjl]
      · by_cases hji : j = i
        · subst hji
          simp [hjl, ExtendibleHTableDirectoryPage.SetBucketPageId,
            ExtendibleHTableDirectoryPage.SetLocalDepth]
        · simp [hjl, hji, ExtendibleHTableDirectoryPage.SetBucketPageId,
            ExtendibleHTableDirectoryPage.SetLocalDepth]

theorem udm_foldl_local (pid : Int) (dnew : Nat) (f : Nat → Nat) (l : List Nat)
    (dir : ExtendibleHTableDirectoryPage) (j : Nat) :
    (l.foldl (fun acc i =>
        ((acc.SetBucketPageId i pid).SetLocalDepth i dnew).SetLocalDepth (f i) dnew)
      dir).local_depths j =
      if j ∈ l ∨ ∃ i ∈ l, f i = j then dnew else dir.local_depths j := by
  induction l generalizing dir with
  | nil => simp
  | cons i l ih =>
      rw [List.foldl_cons, ih]
      by_cases h1 : j ∈ l ∨ ∃ i' ∈ l, f i' = j
      · rw [if_pos h1, if_pos]
        rcases h1 with h | ⟨i', hi', hf⟩
        · exact Or.inl (List.mem_cons_of_mem _ h)
        · exact Or.inr ⟨i', List.mem_cons_of_mem _ hi', hf⟩
      · rw [if_neg h1]
        by_cases h2 : j = f i
        · rw [if_pos (Or.inr ⟨i, List.mem_cons_self _ _, h2.symm⟩)]
          simp [ExtendibleHTableDirectoryPage.SetBucketPageId,
            ExtendibleHTableDirectoryPage.SetLocalDepth, h2]
        · by_cases h3 : j = i
          · rw [if_pos (Or.inl (h3 ▸ List.mem_cons_self _ _))]
            simp [ExtendibleHTableDirectoryPage.SetBucketPageId,
              ExtendibleHTableDirectoryPage.SetLocalDepth, h2, h3]
          · rw [if_neg]
            · simp [ExtendibleHTableDirectoryPage.SetBucketPageId,
                ExtendibleHTableDirectoryPage.SetLocalDepth, h2, h3]
            · rintro (h | ⟨i', hi', hf⟩)
              · rcases List.mem_cons.mp h with rfl | h
                · exact h3 rfl
                · exact h1 (Or.inl h)
              · rcases List.mem_cons.mp hi' with rfl | hi'
                · exact h2 hf.symm
                · exact h1 (Or.inr ⟨i', hi', hf⟩)

theorem mem_udmIndices {first dist size j : Nat} :
    j ∈ udmIndices first dist size ↔ j < size ∧ first ≤ j ∧ (j - first) % dist = 0 := by
  simp [udmIndices, List.mem_filter, List.mem_range, and_assoc]

theorem stride_mem {D first j : Nat} (hf : first < D) :
    (first ≤ j ∧ (j - first) % D = 0) ↔ j % D = first := by
  constructor
  · rintro ⟨hle, hmod⟩
    obtain ⟨m, hm⟩ := Nat.dvd_of_mod_eq_zero hmod
    have hj : j = first + D * m := by omega
    rw [hj, Nat.add_mul_mod_self_left, Nat.mod_eq_of_lt hf]
  · intro h
    have h1 : first ≤ j := h ▸ Nat.mod_le j D
    have h2 := Nat.div_add_mod j D
    have h3 : j - first = D * (j / D) := by omega
    exact ⟨h1, by rw [h3, Nat.mul_mod_right]⟩

theorem mod_two_pow_split {j d : Nat} (hd : 1 ≤ d) :
    j % 2 ^ d = j % 2 ^ (d - 1) + 2 ^ (d - 1) * (j / 2 ^ (d - 1) % 2) := by
  have h : 2 ^ d = 2 ^ (d - 1) * 2 := by
    rw [← Nat.pow_succ]
    congr 1
    omega
  rw [h, Nat.mod_mul]

/-- C3 amended: with `d` the bucket's local depth after the increment and
`local_depth_mask = 2^d - 1` as `Insert` passes it, `UpdateDirectoryMapping`
updates exactly the directory slots agreeing with the old bucket's index on
the low `d-1` bits, setting all their local depths to `d`; among them,
every slot whose bit `d-1` is 0 receives the *new* bucket page id and every
slot whose bit `d-1` is 1 keeps the old bucket page id — regardless of the
corresponding bit of the original bucket's index.  All other slots (and the
global depth) are untouched. -/
theorem update_directory_mapping_split (dir : ExtendibleHTableDirectoryPage) (old_idx : Nat)
    (new_pid : Int) (d mask : Nat) (hd : 1 ≤ d) (hmask : mask = 2 ^ d - 1) :
    (updateDirectoryMapping dir old_idx new_pid d mask).global_depth = dir.global_depth ∧
      ∀ j, j < dir.Size →
        (j % 2 ^ (d - 1) = old_idx % 2 ^ (d - 1) →
          (updateDirectoryMapping dir old_idx new_pid d mask).local_depths j = d ∧
            (j / 2 ^ (d - 1) % 2 = 0 →
              (updateDirectoryMapping dir old_idx new_pid d mask).bucket_page_ids j = new_pid) ∧
            (j / 2 ^ (d - 1) % 2 = 1 →
              (updateDirectoryMapping dir old_idx new_pid d mask).bucket_page_ids j =
                dir.bucket_page_ids j)) ∧
          (j % 2 ^ (d - 1) ≠ old_idx % 2 ^ (d - 1) →
            (updateDirectoryMapping dir old_idx new_pid d mask).local_depths j =
                dir.local_depths j ∧
              (updateDirectoryMapping dir old_idx new_pid d mask).bucket_page_ids j =
                dir.bucket_page_ids j) := by
  have hD1 : 0 < 2 ^ (d - 1) := Nat.pos_pow_of_pos _ (by norm_num)
  have hF : old_idx % 2 ^ (d - 1) < 2 ^ (d - 1) := Nat.mod_lt _ hD1
  have h2d : 2 ^ d = 2 * 2 ^ (d - 1) := by
    rw [← Nat.pow_succ']
    congr 1
    omega
  have hshift : mask >>> 1 = 2 ^ (d - 1) - 1 := by
    rw [hmask, Nat.shiftRight_eq_div_pow, Nat.pow_one]
    omega
  have hfirst : old_idx &&& (mask >>> 1) = old_idx % 2 ^ (d - 1) := by
    rw [hshift]
    exact Nat.and_pow_two_sub_one_eq_mod old_idx (d - 1)
  have hprime : (old_idx % 2 ^ (d - 1)) ||| 2 ^ (d - 1) =
      old_idx % 2 ^ (d - 1) + 2 ^ (d - 1) := lor_two_pow_of_lt hF
  have hUDM : updateDirectoryMapping dir old_idx new_pid d mask =
      (udmIndices (old_idx % 2 ^ (d - 1)) (2 ^ d) dir.Size).foldl
        (fun acc i =>
          ((acc.SetBucketPageId i new_pid).SetLocalDepth i d).SetLocalDepth
            ((fun i => old_idx % 2 ^ (d - 1) + 2 ^ (d - 1) + (i - old_idx % 2 ^ (d - 1))) i) d)
        dir := by
    simp only [updateDirectoryMapping, Nat.one_shiftLeft, hfirst, hprime]
  rw [hUDM, udm_foldl_global]
  refine ⟨rfl, fun j hj => ⟨fun hagree => ?_, fun hdisagree => ?_⟩⟩
  · rcases Nat.mod_two_eq_zero_or_one (j / 2 ^ (d - 1)) with hbit | hbit
    · have hmem : j ∈ udmIndices (old_idx % 2 ^ (d - 1)) (2 ^ d) dir.Size := by
        refine mem_udmIndices.mpr ⟨hj, (stride_mem (by omega)).mpr ?_⟩
        rw [mod_two_pow_split hd, hagree, hbit, Nat.mul_zero, Nat.add_zero]
      refine ⟨?_, fun _ => ?_, fun hbit1 => ?_⟩
      · rw [udm_foldl_local, if_pos (Or.inl hmem)]
      · rw [udm_foldl_bucket, if_pos hmem]
      · omega
    · have hjmod : j % 2 ^ d = old_idx % 2 ^ (d - 1) + 2 ^ (d - 1) := by
        rw [mod_two_pow_split hd, hagree, hbit, Nat.mul_one]
      have hnotmem : j ∉ udmIndices (old_idx % 2 ^ (d - 1)) (2 ^ d) dir.Size := by
        intro hmem
        have hstride := (stride_mem (show old_idx % 2 ^ (d - 1) < 2 ^ d by omega)).mp
          (mem_udmIndices.mp hmem).2
        rw [hjmod] at hstride
        omega
      have hD1j : 2 ^ (d - 1) ≤ j := by
        by_contra hlt
        rw [Nat.div_eq_of_lt (by omega)] at hbit
        simp at hbit
      have hq := Nat.div_add_mod j (2 ^ d)
      have hi : j - 2 ^ (d - 1) = old_idx % 2 ^ (d - 1) + 2 ^ d * (j / 2 ^ d) := by omega
      have himem : j - 2 ^ (d - 1) ∈ udmIndices (old_idx % 2 ^ (d - 1)) (2 ^ d) dir.Size := by
        refine mem_udmIndices.mpr ⟨by omega, (stride_mem (by omega)).mpr ?_⟩
        rw [hi, Nat.add_mul_mod_self_left, Nat.mod_eq_of_lt (by omega)]
      refine ⟨?_, fun hbit0 => ?_, fun _ => ?_⟩
      · rw [udm_foldl_local, if_pos (Or.inr ⟨j - 2 ^ (d - 1), himem, by omega⟩)]
      · omega
      · rw [udm_foldl_bucket, if_neg hnotmem]
  · have hX : j % 2 ^ (d - 1) < 2 ^ (d - 1) := Nat.mod_lt _ hD1
    have hBle : j / 2 ^ (d - 1) % 2 < 2 := Nat.mod_lt _ (by norm_num)
    have hsplit := @mod_two_pow_split j d hd
    have hnotmem : j ∉ udmIndices (old_idx % 2 ^ (d - 1)) (2 ^ d) dir.Size := by
      intro hmem
      have hstride := (stride_mem (show old_idx % 2 ^ (d - 1) < 2 ^ d by omega)).mp
        (mem_udmIndices.mp hmem).2
      rcases Nat.mod_two_eq_zero_or_one (j / 2 ^ (d - 1)) with hb | hb
      · rw [hb, Nat.mul_zero, Nat.add_zero] at hsplit
        omega
      · rw [hb, Nat.mul_one] at hsplit
        omega
    have hnotprime : ¬∃ i ∈ udmIndices (old_idx % 2 ^ (d - 1)) (2 ^ d) dir.Size,
        old_idx % 2 ^ (d - 1) + 2 ^ (d - 1) + (i - old_idx % 2 ^ (d - 1)) = j := by
      rintro ⟨i, hi, hfi⟩
      obtain ⟨hisz, hile, himod⟩ := mem_udmIndices.mp hi
      have histride : i % 2 ^ d = old_idx % 2 ^ (d - 1) :=
        (stride_mem (by omega)).mp ⟨hile, himod⟩
      have hqi := Nat.div_add_mod i (2 ^ d)
      have hjval : j = old_idx % 2 ^ (d - 1) + 2 ^ (d - 1) + 2 ^ d * (i / 2 ^ d) := by omega
      have hjmod : j % 2 ^ d = old_idx % 2 ^ (d - 1) + 2 ^ (d - 1) := by
        rw [hjval, Nat.add_mul_mod_self_left, Nat.mod_eq_of_lt (by omega)]
      rcases Nat.mod_two_eq_zero_or_one (j / 2 ^ (d - 1)) with hb | hb
      · rw [hb, Nat.mul_zero, Nat.add_zero] at hsplit
        omega
      · rw [hb, Nat.mul_one] at hsplit
        omega
    constructor
    · rw [udm_foldl_local, if_neg]
      rintro (h | h)
      · exact hnotmem h
      · exact hnotprime h
    · rw [udm_foldl_bucket, if_neg hnotmem]

/-- Directory used for the C3 counterexample: `global_depth = 1`, both slots
point at bucket page 10 with local depth 0; the bucket at index 0 splits
(`d = 1` after the increment, mask `= 1`, new bucket page 11). -/
def c3dir : ExtendibleHTableDirectoryPage :=
  { max_depth := 3, global_depth := 1, bucket_page_ids := fun _ => 10,
    local_depths := fun _ => 0 }

/-- C3 counterexample: the original bucket's index is 0, whose bit `d-1 = 0`
is 0, so the claim requires slot 0 (the slot agreeing with the original
bucket's bit) to keep the old bucket page id 10 and slot 1 to receive the
new id 11.  The code does the opposite: it unconditionally installs the new
bucket page id on the bit-0 side — slot 0 gets 11 and slot 1 keeps 10. -/
theorem update_directory_mapping_counterexample :
    (updateDirectoryMapping c3dir 0 11 1 1).GetBucketPageId 0 = 11 ∧
      (updateDirectoryMapping c3dir 0 11 1 1).GetBucketPageId 1 = 10 ∧
      (updateDirectoryMapping c3dir 0 11 1 1).GetLocalDepth 0 = 1 ∧
      (updateDirectoryMapping c3dir 0 11 1 1).GetLocalDepth 1 = 1 ∧
      ¬((updateDirectoryMapping c3dir 0 11 1 1).GetBucketPageId 0 = 10 ∧
          (updateDirectoryMapping c3dir 0 11 1 1).GetBucketPageId 1 = 11) := by
  decide

/-- C3 witness: the amended mapping applied to `c3dir` at slots 0 and 1. -/
theorem update_directory_mapping_split_witness :
    (updateDirectoryMapping c3dir 0 11 1 1).bucket_page_ids 0 = 11 ∧
      (updateDirectoryMapping c3dir 0 11 1 1).bucket_page_ids 1 = c3dir.bucket_page_ids 1 ∧
      (updateDirectoryMapping c3dir 0 11 1 1).local_depths 1 = 1 :=
  ⟨((update_directory_mapping_split c3dir 0 11 1 1 (by decide) (by decide)).2 0 (by decide)).1
      (by decide) |>.2.1 (by decide),
    ((update_directory_mapping_split c3dir 0 11 1 1 (by decide) (by decide)).2 1 (by decide)).1
      (by decide) |>.2.2 (by decide),
    ((update_directory_mapping_split c3dir 0 11 1 1 (by decide) (by decide)).2 1 (by decide)).1
      (by decide) |>.1⟩

/-! ## Hash table search path (disk_extendible_hash_table.cpp lines 54-79) -/

/-- Modelled from the spec: extendible_htable_header_page.cpp is absent from
the sources.  Spec sections 4.D and 6 give the header page as `max_depth`
plus an array of `2^max_depth` directory page ids, with
`HashToDirectoryIndex` taking the top `header_max_depth` bits of the 32-bit
hash. -/
structure ExtendibleHTableHeaderPage : Type where
  max_depth : Nat
  directory_page_ids : Nat → Int

namespace ExtendibleHTableHeaderPage

/-- Modelled from the spec: the top `max_depth` bits of the 32-bit hash. -/
def HashToDirectoryIndex (hp : ExtendibleHTableHeaderPage) (hash : Nat) : Nat :=
  hash >>> (32 - hp.max_depth)

def GetDirectoryPageId (hp : ExtendibleHTableHeaderPage) (directory_idx : Nat) : Int :=
  hp.directory_page_ids directory_idx

end ExtendibleHTableHeaderPage

/-- A bucket page: the live `(key, value)` entries (`array_` up to `size_`). -/
structure ExtendibleHTableBucketPage (K V : Type) : Type where
  entries : List (K × V)

namespace ExtendibleHTableBucketPage

/-- Modelled from the spec: extendible_htable_bucket_page.cpp is absent from
the sources.  Spec section 4.D specifies lookup as a linear scan of the
bucket entries with the key comparator; the first entry whose key compares
equal yields its value. -/
def Lookup (b : ExtendibleHTableBucketPage K V) (key : K) (cmp : K → K → Bool) : Option V :=
  (b.entries.find? fun e => cmp e.1 key).map (·.2)

end ExtendibleHTableBucketPage

/-- The hash table as `GetValue` sees it: the header page, plus the
directory and bucket pages reachable through the buffer pool by page id
(fetching a valid page id always succeeds), the comparator and the hash
function. -/
structure DiskExtendibleHashTable (K V : Type) : Type where
  header : ExtendibleHTableHeaderPage
  dirs : Int → ExtendibleHTableDirectoryPage
  buckets : Int → ExtendibleHTableBucketPage K V
  cmp : K → K → Bool
  hashFn : K → Nat

namespace DiskExtendibleHashTable

/-- The page id of the bucket the key hashes to (the header-to-directory-to-
bucket path that `GetValue` walks). -/
def bucketPageIdOf (ht : DiskExtendibleHashTable K V) (key : K) : Int :=
  (ht.dirs (ht.header.GetDirectoryPageId
      (ht.header.HashToDirectoryIndex (ht.hashFn key)))).GetBucketPageId
    ((ht.dirs (ht.header.GetDirectoryPageId
        (ht.header.HashToDirectoryIndex (ht.hashFn key)))).HashToBucketIndex (ht.hashFn key))

/-- `DiskExtendibleHashTable::GetValue` (disk_extendible_hash_table.cpp
lines 54-79): hash the key, take the directory from the header (miss when
`INVALID_PAGE_ID`), the bucket from the directory (miss when
`INVALID_PAGE_ID`), and scan the bucket; on a hit push the value onto the
result vector and return true, else return false.  Returns the flag and the
result vector's final contents. -/
def GetValue (ht : DiskExtendibleHashTable K V) (key : K) (result : List V) : Bool × List V :=
  let h := ht.hashFn key
  let directory_index := ht.header.HashToDirectoryIndex h
  let directory_page_id := ht.header.GetDirectoryPageId directory_index
  if directory_page_id ≠ INVALID_PAGE_ID then
    let directory_page := ht.dirs directory_page_id
    let bucket_idx := directory_page.HashToBucketIndex h
    let bucket_page_id := directory_page.GetBucketPageId bucket_idx
    if bucket_page_id ≠ INVALID_PAGE_ID then
      match (ht.buckets bucket_page_id).Lookup key ht.cmp with
      | some v => (true, result ++ [v])
      | none => (false, result)
    else (false, result)
  else (false, result)

/-- C10: `GetValue` appends at most one value to the result vector, in both
directions.  When the hashed directory exists, the hashed bucket exists and
some entry in it matches the key under the comparator, `GetValue` returns
true having appended exactly the first matching entry's value; when the
directory is absent, the bucket is absent, or no entry matches, it returns
false with the result vector unchanged. -/
theorem getvalue_lookup_contract (ht : DiskExtendibleHashTable K V) (key : K)
    (result : List V) :
    (∀ e : K × V,
        ht.header.GetDirectoryPageId (ht.header.HashToDirectoryIndex (ht.hashFn key)) ≠
            INVALID_PAGE_ID →
          ht.bucketPageIdOf key ≠ INVALID_PAGE_ID →
          (ht.buckets (ht.bucketPageIdOf key)).entries.find? (fun p => ht.cmp p.1 key) =
              some e →
          ht.GetValue key result = (true, result ++ [e.2])) ∧
      (ht.header.GetDirectoryPageId (ht.header.HashToDirectoryIndex (ht.hashFn key)) =
          INVALID_PAGE_ID →
        ht.GetValue key result = (false, result)) ∧
      (ht.header.GetDirectoryPageId (ht.header.HashToDirectoryIndex (ht.hashFn key)) ≠
            INVALID_PAGE_ID →
          ht.bucketPageIdOf key = INVALID_PAGE_ID →
          ht.GetValue key result = (false, result)) ∧
      (ht.header.GetDirectoryPageId (ht.header.HashToDirectoryIndex (ht.hashFn key)) ≠
            INVALID_PAGE_ID →
          ht.bucketPageIdOf key ≠ INVALID_PAGE_ID →
          (ht.buckets (ht.bucketPageIdOf key)).entries.find? (fun p => ht.cmp p.1 key) =
              none →
          ht.GetValue key result = (false, result)) := by
  refine ⟨?_, ?_, ?_, ?_⟩
  · intro e hdir hbkt hfind
    unfold bucketPageIdOf at hbkt hfind
    have hlk : ExtendibleHTableBucketPage.Lookup
        (ht.buckets ((ht.dirs (ht.header.GetDirectoryPageId
          (ht.header.HashToDirectoryIndex (ht.hashFn key)))).GetBucketPageId
          ((ht.dirs (ht.header.GetDirectoryPageId
            (ht.header.HashToDirectoryIndex (ht.hashFn key)))).HashToBucketIndex
            (ht.hashFn key)))) key ht.cmp = some e.2 := by
      unfold ExtendibleHTableBucketPage.Lookup
      rw [hfind]
      rfl
    unfold GetValue
    dsimp only
    rw [if_pos hdir, if_pos hbkt, hlk]
  · intro hdir
    unfold GetValue
    dsimp only
    rw [if_neg fun hne => hne hdir]
  · intro hdir hbkt
    unfold bucketPageIdOf at hbkt
    unfold GetValue
    dsimp only
    rw [if_pos hdir, if_neg fun hne => hne hbkt]
  · intro hdir hbkt hfind
    unfold bucketPageIdOf at hbkt hfind
    have hlk : ExtendibleHTableBucketPage.Lookup
        (ht.buckets ((ht.dirs (ht.header.GetDirectoryPageId
          (ht.header.HashToDirectoryIndex (ht.hashFn key)))).GetBucketPageId
          ((ht.dirs (ht.header.GetDirectoryPageId
            (ht.header.HashToDirectoryIndex (ht.hashFn key)))).HashToBucketIndex
            (ht.hashFn key)))) key ht.cmp = none := by
      unfold ExtendibleHTableBucketPage.Lookup
      rw [hfind]
      rfl
    unfold GetValue
    dsimp only
    rw [if_pos hdir, if_pos hbkt, hlk]

/-- Hash table used to witness C10: the single directory (page 2) and the
single bucket (page 3) exist, and the bucket holds two entries for key 5 —
the first one, value 77, is the one a lookup must return. -/
def c10table : DiskExtendibleHashTable Nat Nat :=
  { header := { max_depth := 0, directory_page_ids := fun _ => 2 }
    dirs := fun _ =>
      { max_depth := 1, global_depth := 0, bucket_page_ids := fun _ => 3,
        local_depths := fun _ => 0 }
    buckets := fun _ => { entries := [(5, 77), (5, 88)] }
    cmp := fun a b => a == b
    hashFn := fun k => k }

/-- C10 witness: a successful lookup appends the first matching value and
returns true; a lookup of an absent key returns false with the vector
unchanged. -/
theorem getvalue_lookup_contract_witness :
    c10table.GetValue 5 [] = (true, ([] : List Nat) ++ [77]) ∧
      c10table.GetValue 6 [9] = (false, [9]) :=
  ⟨(getvalue_lookup_contract c10table 5 []).1 (5, 77) (by decide) (by decide) (by decide),
    (getvalue_lookup_contract c10table 6 [9]).2.2.2 (by decide) (by decide) (by decide)⟩

end DiskExtendibleHashTable

end BusTubSpec
